import Mathlib

/-!
# videohoneypot: segment selection and ffmpeg command construction

A shallow embedding of `main.go` of `malashin/videohoneypot`.

Modelling conventions.

* Lines 118-131 of `getSegmentStart` are modelled twice.  The section "Binary64 arithmetic"
  follows the machine: `float64` values are finite rationals, infinities or NaN, every
  operation rounds to the nearest binary64 value (ties to even), `int` has 64 bits, and the
  conversion `int(x)` of a value outside the `int` range, which the Go specification leaves
  to the implementation, is a function `conv` (on amd64 it gives `-2 ^ 63`).  The functions
  `slotRange64`, `segmentStartOf64` and `getSegmentStart64` are this reading.
* The functions `slotRange`, `segmentStartOf`, `getSegmentStart` and the command builders
  read the same lines in exact arithmetic: durations are rationals (`ℚ`) and Go `int` is
  `Int`.  For an integer-valued segment duration (the default 120 is one) and a file
  duration below `2 ^ 53` nothing is rounded and the two readings agree
  (`getSegmentStart64_int_eq`).
* `rand.Intn n` is modelled by its contract: it panics when `n ≤ 0`, otherwise it returns a
  value of `[0, n)`, obtained here as `raw % n` from a raw generator value `raw` which is an
  explicit argument.  Reseeding the generator from the clock is what makes `raw` arbitrary.
* Library calls outside the repository (`ffinfo.Probe`, `strconv.ParseFloat`, `fmt`'s `%v`
  for `float64` and running `ffmpeg`) are fields of `Lib`.  Console output is not modelled.
* Global flag variables are the fields of `Flags`.
-/

namespace VideoHoneypot

/-! ## Probe result -/

/-- Modelled from the spec: the `Disposition` record of the `ffinfo` package, of which the
program reads the default-disposition flag only. -/
structure Disposition where
  Default : Int
deriving DecidableEq, Repr

/-- Modelled from the spec: the `Tags` record of the `ffinfo` package (language tag and
handler name tag of a stream). -/
structure Tags where
  Language : String
  HandlerName : String
deriving DecidableEq, Repr

/-- Modelled from the spec: one stream of an `ffinfo` probe result. -/
structure Stream where
  Index : Int
  CodecType : String
  Disposition : Disposition
  Tags : Tags
deriving DecidableEq, Repr

/-- Modelled from the spec: the format block of an `ffinfo` probe result; the duration is a
numeric string. -/
structure Format where
  Filename : String
  Duration : String
deriving DecidableEq, Repr

/-- Modelled from the spec: `ffinfo.File`, the probe result of one input file. -/
structure File where
  Format : Format
  Streams : List Stream
deriving DecidableEq, Repr

/-! ## Configuration and library -/

/-- The five flag variables (`main.go` lines 19-23). -/
structure Flags where
  flagSegmentDuration : ℚ
  flagSkipVisualAdSegment : Bool
  flagSkipAudioAdSegment : Bool
  flagSkipSilenceSegment : Bool
  flagSkipDesyncSegment : Bool

/-- Library functions the program calls: `ffinfo.Probe`, `strconv.ParseFloat(s, 64)`
(an error when the string is not a number), `fmt.Sprintf("%v", x)` for a `float64`, the exit status of
`exec.Command("ffmpeg", args...).Run()` (`none` is success) and the raw values of the
random generator, numbered by draw. -/
structure Lib where
  Probe : String → Except String File
  ParseFloat : String → Except String ℚ
  fmtFloat : ℚ → String
  Run : List String → Option String
  rng : Nat → Nat

def visualAdPath : String := "./media/1xbet_logo_white_10sec.mov"
def visualAdDuration : ℚ := 10
def audioAdPath : String := "./media/yandex_eda_10sec.mp4"
def audioAdDuration : ℚ := 10

/-- Result of a Go call: a value, a returned `error`, or a run-time panic. -/
inductive Res (α : Type) where
  | ok (a : α)
  | err (e : String)
  | panic (msg : String)
deriving DecidableEq, Repr

/-! ## Numeric primitives -/

/-- Go conversion `int(x)` of a `float64`: truncation toward zero. -/
def toInt (x : ℚ) : Int := if 0 ≤ x then ⌊x⌋ else ⌈x⌉

/-- Go `math.Mod(x, y)`: `x - y * trunc (x / y)`, the remainder with the sign of `x`
(for `y ≠ 0`). -/
def mathMod (x y : ℚ) : ℚ := x - y * (toInt (x / y) : ℚ)

/-- Go `rand.Intn(n)` on the raw generator value `raw`. -/
def Intn (raw : Nat) (n : Int) : Res Int :=
  if n ≤ 0 then Res.panic "invalid argument to Intn" else Res.ok ((raw : Int) % n)

/-! ## Segment start (`getSegmentStart`, lines 112-132), in exact arithmetic -/

/-- Lines 118-126: the slot count `max` and the pair `(min, max)` after both adjustments. -/
def slotRange (formatDuration segmentDuration : ℚ) : Int × Int :=
  let max : Int :=
    toInt ((formatDuration - mathMod formatDuration segmentDuration) / segmentDuration)
  let min : Int := if max > 1 then 1 else 0
  let max : Int := if max > 2 then max - 1 else max
  (min, max)

/-- Lines 128-131 for a parsed duration: draw a slot of `[min, max)` and scale it. -/
def segmentStartOf (formatDuration segmentDuration : ℚ) (raw : Nat) : Res ℚ :=
  let r := slotRange formatDuration segmentDuration
  match Intn raw (r.2 - r.1) with
  | Res.ok random => Res.ok (segmentDuration * ((random + r.1 : Int) : ℚ))
  | Res.err e => Res.err e
  | Res.panic m => Res.panic m

/-- The function `getSegmentStart`: a duration string that does not parse gives `0` and a
nil error. -/
def getSegmentStart (lib : Lib) (cfg : Flags) (f : File) (raw : Nat) : Res ℚ :=
  match lib.ParseFloat f.Format.Duration with
  | Except.error _ => Res.ok 0
  | Except.ok formatDuration => segmentStartOf formatDuration cfg.flagSegmentDuration raw

/-! ## Defect offset (lines 140-147, 193-200, 272-279) -/

/-- The pair `(min, max)` of the three builders: `max = int(L) - int(A)`. -/
def offsetRange (segmentDuration assetDuration : ℚ) : Int × Int :=
  let max : Int := toInt segmentDuration - toInt assetDuration
  let min : Int := if max > 1 then 1 else 0
  (min, max)

/-- The value formatted into `defectOffset`: one discarded draw `rand.Intn(max)`, then
`math.Max(0, float64(rand.Intn(max-min)+min))`. -/
def defectOffsetValue (segmentDuration assetDuration : ℚ) (raw1 raw2 : Nat) : Res ℚ :=
  let r := offsetRange segmentDuration assetDuration
  match Intn raw1 r.2 with
  | Res.ok _ =>
    match Intn raw2 (r.2 - r.1) with
    | Res.ok random => Res.ok (max 0 ((random + r.1 : Int) : ℚ))
    | Res.err e => Res.err e
    | Res.panic m => Res.panic m
  | Res.err e => Res.err e
  | Res.panic m => Res.panic m

/-! ## Binary64 arithmetic

The definitions above read lines 118-131 in exact arithmetic.  The definitions of this
section follow the machine: every `float64` operation rounds to the nearest binary64 value
(ties to even), integers are 64 bit, and a conversion `int(x)` of a value outside the `int`
range, which Go leaves to the implementation, is given by a function `conv`. -/

/-- A `float64` value: a finite number, an infinity with its sign, or NaN.  The sign of a
zero is not represented. -/
inductive F64 where
  | fin (x : ℚ)
  | inf (neg : Bool)
  | nan
deriving DecidableEq, Repr

/-- Rounding to the nearest integer, a tie going to the even one. -/
def roundEven (y : ℚ) : Int :=
  if y - (⌊y⌋ : Int) < 1 / 2 then ⌊y⌋
  else if 1 / 2 < y - (⌊y⌋ : Int) then ⌊y⌋ + 1
  else if ⌊y⌋ % 2 = 0 then ⌊y⌋ else ⌊y⌋ + 1

/-- The exponent of the unit in the last place of the binary64 values around `x ≠ 0`: 52
below the binary exponent of `x`, and `-1074` throughout the subnormal range. -/
def ulpExp (x : ℚ) : Int := max (Int.log 2 |x|) (-1022) - 52

/-- Rounding of an exact result to binary64: to the nearest value, ties to even, and to an
infinity when the rounded magnitude reaches `2 ^ 1024`. -/
def round64 (x : ℚ) : F64 :=
  if x = 0 then F64.fin 0
  else if (2 : ℚ) ^ 1024 ≤ |(roundEven (x / (2 : ℚ) ^ ulpExp x) : ℚ) * (2 : ℚ) ^ ulpExp x| then
    F64.inf (decide (x < 0))
  else F64.fin ((roundEven (x / (2 : ℚ) ^ ulpExp x) : ℚ) * (2 : ℚ) ^ ulpExp x)

/-- The rational `x` is a binary64 value. -/
def IsBinary64 (x : ℚ) : Prop := round64 x = F64.fin x

/-- Go `x < y` on `float64`: false when an operand is NaN. -/
def F64.lt : F64 → F64 → Bool
  | F64.fin x, F64.fin y => decide (x < y)
  | F64.fin _, F64.inf neg => !neg
  | F64.inf neg, F64.fin _ => neg
  | F64.inf a, F64.inf b => a && !b
  | _, _ => false

/-- Go `x - y` on `float64`. -/
def F64.sub : F64 → F64 → F64
  | F64.fin x, F64.fin y => round64 (x - y)
  | F64.fin _, F64.inf neg => F64.inf (!neg)
  | F64.inf neg, F64.fin _ => F64.inf neg
  | F64.inf a, F64.inf b => if a = b then F64.nan else F64.inf a
  | _, _ => F64.nan

/-- Go `x / y` on `float64` (a zero divisor counts as `+0`). -/
def F64.div : F64 → F64 → F64
  | F64.fin x, F64.fin y =>
    if y = 0 then (if x = 0 then F64.nan else F64.inf (decide (x < 0))) else round64 (x / y)
  | F64.fin _, F64.inf _ => F64.fin 0
  | F64.inf neg, F64.fin y => F64.inf (xor neg (decide (y < 0)))
  | _, _ => F64.nan

/-- Go `x * y` on `float64`. -/
def F64.mul : F64 → F64 → F64
  | F64.fin x, F64.fin y => round64 (x * y)
  | F64.fin x, F64.inf neg => if x = 0 then F64.nan else F64.inf (xor neg (decide (x < 0)))
  | F64.inf neg, F64.fin y => if y = 0 then F64.nan else F64.inf (xor neg (decide (y < 0)))
  | F64.inf a, F64.inf b => F64.inf (xor a b)
  | _, _ => F64.nan

/-- Go `math.Mod(x, y)`: NaN for an infinite or NaN `x`, for `y = 0` and for a NaN `y`;
`x` for an infinite `y`; otherwise the exact remainder `x - y * trunc (x / y)`, which has the
sign of `x`. -/
def F64.mod : F64 → F64 → F64
  | F64.fin x, F64.fin y => if y = 0 then F64.nan else F64.fin (mathMod x y)
  | F64.fin x, F64.inf _ => F64.fin x
  | _, _ => F64.nan

/-- Go `float64(n)` of an `int`. -/
def F64.ofInt (n : Int) : F64 := round64 n

/-- A 64 bit signed integer: the representative of `n` modulo `2 ^ 64` in the `int` range. -/
def wrap64 (n : Int) : Int := (n + 2 ^ 63) % 2 ^ 64 - 2 ^ 63

/-- Go `int(x)` of a `float64`: truncation toward zero when the result is in the `int`
range, and the implementation's value `conv x` otherwise. -/
def F64.toInt64 (conv : F64 → Int) : F64 → Int
  | F64.fin x =>
    if -2 ^ 63 ≤ toInt x ∧ toInt x < 2 ^ 63 then toInt x else wrap64 (conv (F64.fin x))
  | v => wrap64 (conv v)

/-- The out-of-range conversion on amd64: the instruction `CVTTSD2SQ` gives `-2 ^ 63`. -/
def amd64Conv : F64 → Int := fun _ => -2 ^ 63

/-- Lines 118-126 on the machine: the slot count `max` and the pair `(min, max)` after both
adjustments. -/
def slotRange64 (conv : F64 → Int) (formatDuration segmentDuration : F64) : Int × Int :=
  let max : Int := F64.toInt64 conv
    (F64.div (F64.sub formatDuration (F64.mod formatDuration segmentDuration)) segmentDuration)
  let min : Int := if max > 1 then 1 else 0
  let max : Int := if max > 2 then wrap64 (max - 1) else max
  (min, max)

/-- Lines 128-131 on the machine, for a parsed duration. -/
def segmentStartOf64 (conv : F64 → Int) (formatDuration segmentDuration : F64) (raw : Nat) :
    Res F64 :=
  let r := slotRange64 conv formatDuration segmentDuration
  match Intn raw (wrap64 (r.2 - r.1)) with
  | Res.ok random => Res.ok (F64.mul segmentDuration (F64.ofInt (wrap64 (random + r.1))))
  | Res.err e => Res.err e
  | Res.panic m => Res.panic m

/-- The function `getSegmentStart` on the machine; `ParseFloat` is `strconv.ParseFloat` and
`flagSegmentDuration` the flag variable. -/
def getSegmentStart64 (conv : F64 → Int) (ParseFloat : String → Except String F64)
    (flagSegmentDuration : F64) (f : File) (raw : Nat) : Res F64 :=
  match ParseFloat f.Format.Duration with
  | Except.error _ => Res.ok (F64.fin 0)
  | Except.ok formatDuration => segmentStartOf64 conv formatDuration flagSegmentDuration raw

/-- Line 50 of `main`: the test `flagSegmentDuration < 11` that leads to `os.Exit(1)`. -/
def durationTooLow (flagSegmentDuration : F64) : Bool :=
  F64.lt flagSegmentDuration (F64.fin 11)

/-- Line 105 of `parseFile`: the test `formatDuration < flagSegmentDuration` that leads to
the error. -/
def fileTooShort (formatDuration flagSegmentDuration : F64) : Bool :=
  F64.lt formatDuration flagSegmentDuration

/-! ## Strings -/

/-- Go `strings.TrimSuffix(s, suffix)`. -/
def TrimSuffix (s suffix : String) : String :=
  if suffix.data.isSuffixOf s.data then
    String.mk (s.data.take (s.data.length - suffix.data.length))
  else s

/-- The loop of Go `filepath.Ext` (with `/` as path separator), run over the path from its
last character down; `acc` is the part of the path already passed. -/
def extScan : List Char → List Char → List Char
  | [], _ => []
  | c :: rest, acc =>
    if c = '/' then [] else if c = '.' then c :: acc else extScan rest (c :: acc)

/-- Go `filepath.Ext(path)`. -/
def Ext (path : String) : String := String.mk (extScan path.data.reverse [])

/-- Go `%v` of an `int`. -/
def fmtInt (n : Int) : String := toString n

/-- The output path of a builder: `strings.TrimSuffix(name, filepath.Ext(name)) + suffix`. -/
def outputPath (name suffix : String) : String := TrimSuffix name (Ext name) ++ suffix

/-! ## Argument vectors -/

/-- Lines 152-172: the arguments of the visual ad command. -/
def visualAdArgs (lib : Lib) (cfg : Flags) (f : File) (segmentStart : ℚ)
    (defectOffset : String) : List String :=
  ["-ss", lib.fmtFloat segmentStart,
   "-i", f.Format.Filename,
   "-i", visualAdPath,
   "-filter_complex", "[1:v]setpts=PTS+" ++ defectOffset ++
     "/TB[o],[0:v][o]overlay=enable=gte(t\\," ++ defectOffset ++
     ")::x=main_w-overlay_w-main_w/20:y=main_h-overlay_h:eof_action=pass,format=yuv420p[v]",
   "-map", "[v]",
   "-vcodec", "libx264",
   "-pix_fmt", "yuv420p",
   "-preset", "medium",
   "-crf", "18",
   "-acodec", "aac",
   "-map", "0:a",
   "-ab", "256k",
   "-ar", "48000",
   "-t", lib.fmtFloat cfg.flagSegmentDuration,
   "-loglevel", "error",
   "-stats",
   "-y",
   "-hide_banner",
   outputPath f.Format.Filename "_visual_ad.mp4"]

/-- The three variables the stream loop of `makeAudioAdSegment` updates. -/
structure AudioAcc where
  filterComplex : String
  audioOutput : List String
  i : Nat
deriving DecidableEq, Repr

/-- Lines 209-223: the body of the stream loop. -/
def audioStep (lib : Lib) (defectOffset : String) (acc : AudioAcc) (s : Stream) : AudioAcc :=
  if s.CodecType = "audio" then
    let filterComplex := acc.filterComplex ++
      ("[0:" ++ fmtInt s.Index ++ "]volume=0.25:enable='between(t," ++ defectOffset ++ "," ++
        lib.fmtFloat audioAdDuration ++ ")'[a" ++ fmtInt s.Index ++ "],[1:a]volume=1.5[ad" ++
        fmtInt s.Index ++ "],[ad" ++ fmtInt s.Index ++ "][a" ++ fmtInt s.Index ++
        "]amix=inputs=2:duration=longest:dropout_transition=2[a" ++ fmtInt s.Index ++ "],")
    let disposition := if s.Disposition.Default = 1 then "default" else "none"
    let audioOutput := acc.audioOutput ++
      ["-map", "[a" ++ fmtInt s.Index ++ "]", "-acodec", "aac", "-ab", "256k", "-ar", "48000",
       "-metadata:s:a:" ++ toString acc.i, "language=" ++ s.Tags.Language,
       "-disposition:a:" ++ toString acc.i, disposition]
    let audioOutput :=
      if s.Tags.HandlerName ≠ "SoundHandler" then
        audioOutput ++
          ["-metadata:s:a:" ++ toString acc.i, "handler=\"" ++ s.Tags.HandlerName ++ "\""]
      else audioOutput
    AudioAcc.mk filterComplex audioOutput (acc.i + 1)
  else acc

/-- Lines 205-224: the stream loop, from the empty accumulator. -/
def audioLoop (lib : Lib) (defectOffset : String) (streams : List Stream) : AudioAcc :=
  streams.foldl (audioStep lib defectOffset) (AudioAcc.mk "" [] 0)

/-- Lines 226-251: the arguments of the audio ad command. -/
def audioAdArgs (lib : Lib) (cfg : Flags) (f : File) (segmentStart : ℚ)
    (defectOffset : String) : List String :=
  let acc := audioLoop lib defectOffset f.Streams
  let filterComplex := TrimSuffix acc.filterComplex ","
  ["-ss", lib.fmtFloat segmentStart,
   "-i", f.Format.Filename,
   "-itsoffset", defectOffset,
   "-i", audioAdPath,
   "-filter_complex", filterComplex,
   "-map", "0:v",
   "-vcodec", "libx264",
   "-pix_fmt", "yuv420p",
   "-preset", "medium",
   "-crf", "18",
   "-async", "1"] ++ acc.audioOutput ++
  ["-t", lib.fmtFloat cfg.flagSegmentDuration,
   "-loglevel", "error",
   "-stats",
   "-y",
   "-hide_banner",
   outputPath f.Format.Filename "_audio_ad.mp4"]

/-- Line 296: the value of the `-af` option. -/
def silenceFilter (defectOffset : String) : String :=
  "volume=0:enable='between(t," ++ defectOffset ++ "," ++ fmtInt 10 ++ ")'"

/-- Lines 284-303: the arguments of the silence command. -/
def silenceArgs (lib : Lib) (cfg : Flags) (f : File) (segmentStart : ℚ)
    (defectOffset : String) : List String :=
  ["-ss", lib.fmtFloat segmentStart,
   "-i", f.Format.Filename,
   "-map", "0:v",
   "-vcodec", "libx264",
   "-pix_fmt", "yuv420p",
   "-preset", "medium",
   "-crf", "18",
   "-acodec", "aac",
   "-map", "0:a",
   "-ab", "256k",
   "-ar", "48000",
   "-af", silenceFilter defectOffset,
   "-t", lib.fmtFloat cfg.flagSegmentDuration,
   "-loglevel", "error",
   "-stats",
   "-y",
   "-hide_banner",
   outputPath f.Format.Filename "_silence.mp4"]

/-- Lines 327-348: the arguments of the desync command. -/
def desyncArgs (lib : Lib) (cfg : Flags) (f : File) (segmentStart : ℚ) : List String :=
  ["-ss", lib.fmtFloat segmentStart,
   "-i", f.Format.Filename,
   "-ss", lib.fmtFloat segmentStart,
   "-itsoffset", "1",
   "-i", f.Format.Filename,
   "-map", "0:v",
   "-vcodec", "libx264",
   "-pix_fmt", "yuv420p",
   "-preset", "medium",
   "-crf", "18",
   "-acodec", "aac",
   "-map", "1:a",
   "-ab", "256k",
   "-ar", "48000",
   "-t", lib.fmtFloat cfg.flagSegmentDuration,
   "-loglevel", "error",
   "-stats",
   "-y",
   "-hide_banner",
   outputPath f.Format.Filename "_desync.mp4"]

/-! ## Commands: segment start, defect offset, arguments -/

/-- Sequencing of Go calls: the first error or panic ends the computation. -/
def Res.bind {α β : Type} (r : Res α) (k : α → Res β) : Res β :=
  match r with
  | Res.ok a => k a
  | Res.err e => Res.err e
  | Res.panic m => Res.panic m

/-- Lines 135-172 of `makeVisualAdSegment`: the command built from three raw draws. -/
def visualAdCommand (lib : Lib) (cfg : Flags) (f : File) (raw0 raw1 raw2 : Nat) :
    Res (List String) :=
  (getSegmentStart lib cfg f raw0).bind fun segmentStart =>
  (defectOffsetValue cfg.flagSegmentDuration visualAdDuration raw1 raw2).bind fun o =>
  Res.ok (visualAdArgs lib cfg f segmentStart (lib.fmtFloat o))

/-- Lines 188-251 of `makeAudioAdSegment`: the command built from three raw draws. -/
def audioAdCommand (lib : Lib) (cfg : Flags) (f : File) (raw0 raw1 raw2 : Nat) :
    Res (List String) :=
  (getSegmentStart lib cfg f raw0).bind fun segmentStart =>
  (defectOffsetValue cfg.flagSegmentDuration audioAdDuration raw1 raw2).bind fun o =>
  Res.ok (audioAdArgs lib cfg f segmentStart (lib.fmtFloat o))

/-- Lines 267-303 of `makeSilenceSegment`: the command built from three raw draws. -/
def silenceCommand (lib : Lib) (cfg : Flags) (f : File) (raw0 raw1 raw2 : Nat) :
    Res (List String) :=
  (getSegmentStart lib cfg f raw0).bind fun segmentStart =>
  (defectOffsetValue cfg.flagSegmentDuration audioAdDuration raw1 raw2).bind fun o =>
  Res.ok (silenceArgs lib cfg f segmentStart (lib.fmtFloat o))

/-- Lines 319-348 of `makeDesyncSegment`: the command built from one raw draw. -/
def desyncCommand (lib : Lib) (cfg : Flags) (f : File) (raw0 : Nat) : Res (List String) :=
  (getSegmentStart lib cfg f raw0).bind fun segmentStart =>
  Res.ok (desyncArgs lib cfg f segmentStart)

/-! ## Running the commands: `main` -/

/-- What the run has done so far: the number of raw generator values consumed and the
argument vectors handed to `ffmpeg`, oldest first. -/
structure World where
  draws : Nat
  trace : List (List String)
deriving DecidableEq, Repr

/-- The tail of every builder: `cmd.Run()` on the command, its error returned. -/
def runFfmpeg (lib : Lib) (draws : Nat) (command : Res (List String)) (w : World) :
    Res Unit × World :=
  match command with
  | Res.ok args =>
    match lib.Run args with
    | none => (Res.ok (), World.mk (w.draws + draws) (w.trace ++ [args]))
    | some e => (Res.err e, World.mk (w.draws + draws) (w.trace ++ [args]))
  | Res.err e => (Res.err e, w)
  | Res.panic m => (Res.panic m, w)

def makeVisualAdSegment (lib : Lib) (cfg : Flags) (f : File) (w : World) : Res Unit × World :=
  runFfmpeg lib 3
    (visualAdCommand lib cfg f (lib.rng w.draws) (lib.rng (w.draws + 1)) (lib.rng (w.draws + 2)))
    w

def makeAudioAdSegment (lib : Lib) (cfg : Flags) (f : File) (w : World) : Res Unit × World :=
  runFfmpeg lib 3
    (audioAdCommand lib cfg f (lib.rng w.draws) (lib.rng (w.draws + 1)) (lib.rng (w.draws + 2)))
    w

def makeSilenceSegment (lib : Lib) (cfg : Flags) (f : File) (w : World) : Res Unit × World :=
  runFfmpeg lib 3
    (silenceCommand lib cfg f (lib.rng w.draws) (lib.rng (w.draws + 1)) (lib.rng (w.draws + 2)))
    w

def makeDesyncSegment (lib : Lib) (cfg : Flags) (f : File) (w : World) : Res Unit × World :=
  runFfmpeg lib 1 (desyncCommand lib cfg f (lib.rng w.draws)) w

/-- The function `parseFile` (lines 94-110). -/
def parseFile (lib : Lib) (cfg : Flags) (filePath : String) : Except String File :=
  match lib.Probe filePath with
  | Except.error e => Except.error e
  | Except.ok f =>
    match lib.ParseFloat f.Format.Duration with
    | Except.error e => Except.error e
    | Except.ok formatDuration =>
      if formatDuration < cfg.flagSegmentDuration then
        Except.error ("File duration (" ++ lib.fmtFloat formatDuration ++
          ") is smaller then duration flag (" ++ lib.fmtFloat cfg.flagSegmentDuration ++ ")")
      else Except.ok f

/-- One guarded builder call of the loop body: `if !skip { err = make(f); if err != nil
{ panic(err) } }`.  The first component is the panic value, if any. -/
def stage (skip : Bool) (make : World → Res Unit × World) (w : World) :
    Option String × World :=
  if skip then (none, w)
  else
    match make w with
    | (Res.ok _, w1) => (none, w1)
    | (Res.err e, w1) => (some e, w1)
    | (Res.panic m, w1) => (some m, w1)

/-- Statement sequencing in `main`: a panic ends the run. -/
def andThen (a b : World → Option String × World) (w : World) : Option String × World :=
  match a w with
  | (none, w1) => b w1
  | (some m, w1) => (some m, w1)

/-- Lines 63-90: the four guarded builder calls for a probed file. -/
def makeSegments (lib : Lib) (cfg : Flags) (f : File) : World → Option String × World :=
  andThen (stage cfg.flagSkipVisualAdSegment (makeVisualAdSegment lib cfg f))
    (andThen (stage cfg.flagSkipAudioAdSegment (makeAudioAdSegment lib cfg f))
      (andThen (stage cfg.flagSkipSilenceSegment (makeSilenceSegment lib cfg f))
        (stage cfg.flagSkipDesyncSegment (makeDesyncSegment lib cfg f))))

/-- Lines 57-90: the loop body for one path. -/
def processFile (lib : Lib) (cfg : Flags) (filePath : String) (w : World) :
    Option String × World :=
  match parseFile lib cfg filePath with
  | Except.error e => (some e, w)
  | Except.ok f => makeSegments lib cfg f w

/-- Lines 56-91: the loop over the paths. -/
def processFiles (lib : Lib) (cfg : Flags) : List String → World → Option String × World
  | [], w => (none, w)
  | filePath :: rest, w =>
    match processFile lib cfg filePath w with
    | (none, w1) => processFiles lib cfg rest w1
    | (some m, w1) => (some m, w1)

/-- How `main` ends. -/
inductive Outcome where
  | done
  | exit (code : Int)
  | panicked (msg : String)
deriving DecidableEq, Repr

/-- The function `main` after flag parsing (lines 45-92). -/
def main (lib : Lib) (cfg : Flags) (files : List String) : Outcome × World :=
  if cfg.flagSegmentDuration < 11 then (Outcome.exit 1, World.mk 0 [])
  else
    match processFiles lib cfg files (World.mk 0 []) with
    | (none, w) => (Outcome.done, w)
    | (some m, w) => (Outcome.panicked m, w)

/-! ## The selection range in the words of the specification -/

/-- Specification 4.2: `maxSlots = floor(D / L)`. -/
def maxSlots (D L : ℚ) : Int := ⌊D / L⌋

/-- Specification 4.2: the lower end of the range is `1` if `maxSlots > 1`, else `0`. -/
def slotLo (D L : ℚ) : Int := if maxSlots D L > 1 then 1 else 0

/-- Specification 4.2: the upper end is decremented by one if `maxSlots > 2`. -/
def slotHi (D L : ℚ) : Int := if maxSlots D L > 2 then maxSlots D L - 1 else maxSlots D L

/-! ## The audio ad command in the words of the specification -/

/-- The audio streams of a probe result, in probe order. -/
def audioStreams (streams : List Stream) : List Stream :=
  streams.filter fun s => s.CodecType = "audio"

/-- The mix chain of one audio stream, labelled with the index of the stream: attenuate the
original track, boost the ad, mix the two. -/
def mixChain (lib : Lib) (defectOffset : String) (s : Stream) : String :=
  "[0:" ++ fmtInt s.Index ++ "]volume=0.25:enable='between(t," ++ defectOffset ++ "," ++
    lib.fmtFloat audioAdDuration ++ ")'[a" ++ fmtInt s.Index ++ "],[1:a]volume=1.5[ad" ++
    fmtInt s.Index ++ "],[ad" ++ fmtInt s.Index ++ "][a" ++ fmtInt s.Index ++
    "]amix=inputs=2:duration=longest:dropout_transition=2[a" ++ fmtInt s.Index ++ "]"

/-- The output track at audio position `k` for the audio stream `s`: mapped from the label
of `s`, with the language of `s`, its default flag as disposition and, unless the handler
name is `SoundHandler`, a handler entry. -/
def outputTrack (k : Nat) (s : Stream) : List String :=
  ["-map", "[a" ++ fmtInt s.Index ++ "]", "-acodec", "aac", "-ab", "256k", "-ar", "48000",
   "-metadata:s:a:" ++ toString k, "language=" ++ s.Tags.Language,
   "-disposition:a:" ++ toString k,
   if s.Disposition.Default = 1 then "default" else "none"] ++
  (if s.Tags.HandlerName = "SoundHandler" then []
   else ["-metadata:s:a:" ++ toString k, "handler=\"" ++ s.Tags.HandlerName ++ "\""])

/-- The output tracks of the audio streams `streams`, numbered from `k`. -/
def outputTracks : Nat → List Stream → List String
  | _, [] => []
  | k, s :: rest => outputTrack k s ++ outputTracks (k + 1) rest

/-- The filter graph: the mix chains joined by commas. -/
def filterGraph (lib : Lib) (defectOffset : String) (streams : List Stream) : String :=
  String.intercalate "," ((audioStreams streams).map (mixChain lib defectOffset))

/-! ## The output paths in the words of the specification -/

/-- The last element of a path: what follows the last `/`. -/
def lastElement (p : List Char) : List Char :=
  (p.reverse.takeWhile fun c => c ≠ '/').reverse

/-- The extension of a path: the part from the last dot of the last path element, empty if
that element has no dot. -/
def extension (p : List Char) : List Char :=
  if '.' ∈ lastElement p then
    '.' :: ((lastElement p).reverse.takeWhile fun c => c ≠ '.').reverse
  else []

/-- The path `p` with its extension removed. -/
def stem (p : String) : String :=
  String.mk (p.data.take (p.data.length - (extension p.data).length))

/-- The output paths of the defect types that are not skipped, in the order of `main`. -/
def expectedOutputs (cfg : Flags) (p : String) : List String :=
  (if cfg.flagSkipVisualAdSegment then [] else [stem p ++ "_visual_ad.mp4"]) ++
  (if cfg.flagSkipAudioAdSegment then [] else [stem p ++ "_audio_ad.mp4"]) ++
  (if cfg.flagSkipSilenceSegment then [] else [stem p ++ "_silence.mp4"]) ++
  (if cfg.flagSkipDesyncSegment then [] else [stem p ++ "_desync.mp4"])

/-- The commands a step `a` of `main` hands to `ffmpeg` when started in `w`. -/
def newCommands (a : World → Option String × World) (w : World) : List (List String) :=
  (a w).2.trace.drop w.trace.length

/-- The step `a` only appends commands to the trace; their output paths (last arguments) are
an initial part of `expected`, and all of `expected` when the step ends without panic. -/
def Emits (a : World → Option String × World) (expected : List String) : Prop :=
  ∀ w : World, ∃ cmds : List (List String), (a w).2.trace = w.trace ++ cmds ∧
    cmds.map List.getLast? <+: expected.map some ∧
    ((a w).1 = none → cmds.map List.getLast? = expected.map some)

/-! ## A concrete library for the examples -/

/-- Reads a string of decimal digits. -/
def parseDigits : List Char → Nat → Option Nat
  | [], n => some n
  | c :: rest, n => if c.isDigit then parseDigits rest (10 * n + (c.toNat - 48)) else none

/-- The part of `strconv.ParseFloat` the examples use: a nonempty string of decimal digits
is that number, anything else is a syntax error. -/
def parseDecimal (s : String) : Except String ℚ :=
  match s.data with
  | [] => Except.error "invalid syntax"
  | c :: rest =>
    match parseDigits (c :: rest) 0 with
    | some n => Except.ok (n : ℚ)
    | none => Except.error "invalid syntax"

/-- The part of `%v` the examples use: an integer value of magnitude below `10 ^ 6` is
printed in decimal digits (as Go does); other values, which no example formats, are shown
as a fraction. -/
def fmtDecimal (x : ℚ) : String :=
  if x.den = 1 then toString x.num else toString x.num ++ "/" ++ toString x.den

/-- A `strconv.ParseFloat` that returns `x` for every string. -/
def parseAs (x : F64) : String → Except String F64 := fun _ => Except.ok x

/-- The binary64 value nearest to `11.1`. -/
def f64_11_1 : ℚ := 6248744482976563 / 562949953421312

/-- The binary64 value nearest to `12.82`. -/
def f64_12_82 : ℚ := 1804254600715305 / 140737488355328

/-- The binary64 value nearest to `10 ^ 30`. -/
def f64_1e30 : ℚ := 1000000000000000019884624838656

/-- A probe that reports the path it is given, the duration `duration` and `streams`. -/
def probeAs (duration : String) (streams : List Stream) (filePath : String) :
    Except String File :=
  Except.ok (File.mk (Format.mk filePath duration) streams)

/-- A library in which every file has duration `duration` and streams `streams`, `ffmpeg`
always succeeds and the `n`-th raw generator value is `n`. -/
def exampleLib (duration : String) (streams : List Stream) : Lib :=
  Lib.mk (probeAs duration streams) parseDecimal fmtDecimal (fun _ => none) (fun n => n)

/-- Flags with segment duration `d` and nothing skipped. -/
def flagsOf (d : ℚ) : Flags := Flags.mk d false false false false

/-- Flags with segment duration `d` and everything but the visual ad skipped. -/
def visualOnly (d : ℚ) : Flags := Flags.mk d false true true true

/-- A file named `name` with duration string `duration` and streams `streams`. -/
def fileOf (name duration : String) (streams : List Stream) : File :=
  File.mk (Format.mk name duration) streams

/-- A video stream at index 0 and audio streams at indices 2 and 3. -/
def twoAudioStreams : List Stream :=
  [Stream.mk 0 "video" (Disposition.mk 1) (Tags.mk "und" "VideoHandler"),
   Stream.mk 1 "subtitle" (Disposition.mk 0) (Tags.mk "eng" "SubtitleHandler"),
   Stream.mk 2 "audio" (Disposition.mk 1) (Tags.mk "rus" "SoundHandler"),
   Stream.mk 3 "audio" (Disposition.mk 0) (Tags.mk "eng" "Commentary")]

end VideoHoneypot

namespace VideoHoneypot

/-! ## Arithmetic of the slot count -/

theorem toInt_of_nonneg {x : ℚ} (hx : 0 ≤ x) : toInt x = ⌊x⌋ := by
  simp [toInt, hx]

theorem toInt_intCast (n : Int) : toInt (n : ℚ) = n := by
  unfold toInt
  split <;> simp

theorem mathMod_of_nonneg {x y : ℚ} (h : 0 ≤ x / y) :
    mathMod x y = x - y * ((⌊x / y⌋ : Int) : ℚ) := by
  simp [mathMod, toInt_of_nonneg h]

/-- Line 118 computes `floor (D / L)` when `D ≥ 0` and `L > 0`. -/
theorem slotCount_eq {D L : ℚ} (hL : 0 < L) (hD : 0 ≤ D) :
    toInt ((D - mathMod D L) / L) = ⌊D / L⌋ := by
  have h : 0 ≤ D / L := div_nonneg hD hL.le
  rw [mathMod_of_nonneg h]
  have : (D - (D - L * ((⌊D / L⌋ : Int) : ℚ))) / L = ((⌊D / L⌋ : Int) : ℚ) := by
    field_simp
  rw [this, toInt_intCast]

theorem slotRange_eq {D L : ℚ} (hL : 0 < L) (hD : 0 ≤ D) :
    slotRange D L =
      (if ⌊D / L⌋ > 1 then 1 else 0, if ⌊D / L⌋ > 2 then ⌊D / L⌋ - 1 else ⌊D / L⌋) := by
  simp only [slotRange, slotCount_eq hL hD]

theorem floor_div_pos {D L : ℚ} (hL : 0 < L) (hDL : L ≤ D) : 1 ≤ ⌊D / L⌋ := by
  rw [Int.le_floor]
  rw [le_div_iff₀ hL]
  simpa using hDL

theorem floor_div_mul_le {D L : ℚ} (hL : 0 < L) : ((⌊D / L⌋ : Int) : ℚ) * L ≤ D := by
  have := Int.floor_le (D / L)
  rwa [le_div_iff₀ hL] at this

theorem lt_floor_div_succ_mul {D L : ℚ} (hL : 0 < L) : D < (((⌊D / L⌋ : Int) : ℚ) + 1) * L := by
  have := Int.lt_floor_add_one (D / L)
  rwa [div_lt_iff₀ hL] at this

theorem Intn_of_pos (raw : Nat) {n : Int} (hn : 0 < n) :
    Intn raw n = Res.ok ((raw : Int) % n) := by
  simp [Intn, not_le.mpr hn]

theorem Intn_of_nonpos (raw : Nat) {n : Int} (hn : n ≤ 0) :
    Intn raw n = Res.panic "invalid argument to Intn" := by
  simp [Intn, hn]

theorem slotRange_spec {D L : ℚ} (hL : 0 < L) (hD : 0 ≤ D) :
    slotRange D L = (slotLo D L, slotHi D L) := by
  rw [slotRange_eq hL hD]
  rfl

theorem maxSlots_pos {D L : ℚ} (hL : 0 < L) (hDL : L ≤ D) : 1 ≤ maxSlots D L :=
  floor_div_pos hL hDL

theorem slotLo_nonneg (D L : ℚ) : 0 ≤ slotLo D L := by
  unfold slotLo
  split <;> decide

theorem slotLo_lt_slotHi {D L : ℚ} (hL : 0 < L) (hDL : L ≤ D) : slotLo D L < slotHi D L := by
  have h := maxSlots_pos hL hDL
  unfold slotLo slotHi
  split_ifs <;> omega

theorem slotHi_le (D L : ℚ) : slotHi D L ≤ maxSlots D L := by
  unfold slotHi
  split_ifs <;> omega

/-- For `0 < L ≤ D` the draw of `getSegmentStart` never panics and the chosen slot is
`raw % (hi - lo) + lo`. -/
theorem segmentStartOf_eq {D L : ℚ} (hL : 0 < L) (hDL : L ≤ D) (raw : Nat) :
    segmentStartOf D L raw =
      Res.ok (L * (((raw : Int) % (slotHi D L - slotLo D L) + slotLo D L : Int) : ℚ)) := by
  have hD : 0 ≤ D := le_trans hL.le hDL
  have hpos : 0 < slotHi D L - slotLo D L := by
    have := slotLo_lt_slotHi hL hDL
    omega
  unfold segmentStartOf
  rw [slotRange_spec hL hD]
  dsimp only
  rw [Intn_of_pos raw hpos]

/-- The slot drawn lies in `[lo, hi)`. -/
theorem slot_mem (D L : ℚ) (hL : 0 < L) (hDL : L ≤ D) (raw : Nat) :
    slotLo D L ≤ (raw : Int) % (slotHi D L - slotLo D L) + slotLo D L ∧
      (raw : Int) % (slotHi D L - slotLo D L) + slotLo D L < slotHi D L := by
  have hpos : 0 < slotHi D L - slotLo D L := by
    have := slotLo_lt_slotHi hL hDL
    omega
  have h1 := Int.emod_nonneg (raw : Int) (ne_of_gt hpos)
  have h2 := Int.emod_lt_of_pos (raw : Int) hpos
  constructor <;> omega

/-- Every slot of `[lo, hi)` is drawn for some raw generator value. -/
theorem slot_surj (D L : ℚ) (k : Int) (hlo : slotLo D L ≤ k) (hhi : k < slotHi D L) :
    ∃ raw : Nat, (raw : Int) % (slotHi D L - slotLo D L) + slotLo D L = k := by
  refine ⟨(k - slotLo D L).toNat, ?_⟩
  have h0 : 0 ≤ k - slotLo D L := by omega
  rw [Int.toNat_of_nonneg h0, Int.emod_eq_of_lt h0 (by omega)]
  omega

theorem getSegmentStart_eq (lib : Lib) (cfg : Flags) (f : File) (D : ℚ)
    (hD : lib.ParseFloat f.Format.Duration = Except.ok D)
    (hL : 0 < cfg.flagSegmentDuration) (hDL : cfg.flagSegmentDuration ≤ D) (raw : Nat) :
    getSegmentStart lib cfg f raw =
      Res.ok (cfg.flagSegmentDuration *
        (((raw : Int) % (slotHi D cfg.flagSegmentDuration - slotLo D cfg.flagSegmentDuration)
          + slotLo D cfg.flagSegmentDuration : Int) : ℚ)) := by
  simp only [getSegmentStart, hD, segmentStartOf_eq hL hDL raw]

/-- For `0 < L ≤ D` the call returns `L * k` for a slot `k` of `[lo, hi)`. -/
theorem getSegmentStart_slot (lib : Lib) (cfg : Flags) (f : File) (D : ℚ)
    (hD : lib.ParseFloat f.Format.Duration = Except.ok D)
    (hL : 0 < cfg.flagSegmentDuration) (hDL : cfg.flagSegmentDuration ≤ D) (raw : Nat) :
    ∃ k : Int, getSegmentStart lib cfg f raw = Res.ok (cfg.flagSegmentDuration * (k : ℚ)) ∧
      slotLo D cfg.flagSegmentDuration ≤ k ∧ k < slotHi D cfg.flagSegmentDuration :=
  ⟨_, getSegmentStart_eq lib cfg f D hD hL hDL raw, slot_mem D _ hL hDL raw⟩

theorem toInt_sub_one_lt (x : ℚ) : ((toInt x : Int) : ℚ) - 1 < x := by
  unfold toInt
  split_ifs with h
  · have := Int.floor_le x
    linarith
  · have := Int.ceil_lt_add_one x
    linarith

theorem lt_toInt_add_one (x : ℚ) : x < ((toInt x : Int) : ℚ) + 1 := by
  unfold toInt
  split_ifs with h
  · exact Int.lt_floor_add_one x
  · have := Int.le_ceil x
    linarith

theorem toInt_le_of_nonneg {x : ℚ} (h : 0 ≤ x) : ((toInt x : Int) : ℚ) ≤ x := by
  rw [toInt_of_nonneg h]
  exact Int.floor_le x

theorem le_toInt_of_neg {x : ℚ} (h : x < 0) : x ≤ ((toInt x : Int) : ℚ) := by
  simp only [toInt, not_le.mpr h, if_false]
  exact Int.le_ceil x

/-- The largest offset of the range, `int(L) - int(A) - 1`, is below `L - A` when `A < L`. -/
theorem offset_top_lt {L A : ℚ} (h : A < L) :
    (((toInt L - toInt A - 1 : Int) : Int) : ℚ) < L - A := by
  push_cast
  rcases le_or_lt 0 L with hL | hL
  · have h1 := toInt_le_of_nonneg hL
    have h2 := lt_toInt_add_one A
    linarith
  · have hA : A < 0 := lt_trans h hL
    have h1 := toInt_sub_one_lt L
    have h2 := le_toInt_of_neg hA
    linarith

/-- With a positive `max` both draws of the offset selector succeed and the offset is
`raw2 % (max - min) + min`. -/
theorem defectOffsetValue_eq (L A : ℚ) (raw1 raw2 : Nat) (h : 1 ≤ toInt L - toInt A) :
    defectOffsetValue L A raw1 raw2 =
      Res.ok (max 0 ((((raw2 : Int) % ((offsetRange L A).2 - (offsetRange L A).1) +
        (offsetRange L A).1 : Int) : Int) : ℚ)) := by
  have h2 : 0 < (offsetRange L A).2 := by
    simp only [offsetRange]
    omega
  have h3 : 0 < (offsetRange L A).2 - (offsetRange L A).1 := by
    simp only [offsetRange]
    split_ifs <;> omega
  unfold defectOffsetValue
  dsimp only
  rw [Intn_of_pos raw1 h2]
  dsimp only
  rw [Intn_of_pos raw2 h3]

theorem defectOffsetValue_panics (L A : ℚ) (raw1 raw2 : Nat) (h : toInt L - toInt A ≤ 0) :
    defectOffsetValue L A raw1 raw2 = Res.panic "invalid argument to Intn" := by
  have h2 : (offsetRange L A).2 ≤ 0 := by
    simp only [offsetRange]
    omega
  unfold defectOffsetValue
  dsimp only
  rw [Intn_of_nonpos raw1 h2]

/-- The offset drawn lies in `[min, max)` and is not negative. -/
theorem offset_mem (L A : ℚ) (raw2 : Nat) (h : 1 ≤ toInt L - toInt A) :
    0 ≤ (raw2 : Int) % ((offsetRange L A).2 - (offsetRange L A).1) + (offsetRange L A).1 ∧
      (raw2 : Int) % ((offsetRange L A).2 - (offsetRange L A).1) + (offsetRange L A).1 ≤
        toInt L - toInt A - 1 := by
  have h3 : 0 < (offsetRange L A).2 - (offsetRange L A).1 := by
    simp only [offsetRange]
    split_ifs <;> omega
  have h1 := Int.emod_nonneg (raw2 : Int) (ne_of_gt h3)
  have h2 := Int.emod_lt_of_pos (raw2 : Int) h3
  have h4 : 0 ≤ (offsetRange L A).1 := by
    simp only [offsetRange]
    split_ifs <;> omega
  have h5 : (offsetRange L A).2 = toInt L - toInt A := rfl
  constructor <;> omega

theorem toInt_ge_eleven {L : ℚ} (h : 11 ≤ L) : 11 ≤ toInt L := by
  rw [toInt_of_nonneg (by linarith)]
  rw [Int.le_floor]
  exact_mod_cast h

theorem toInt_ten : toInt 10 = 10 := by
  have := toInt_intCast 10
  simpa using this

/-! ## Segment start: range of the result -/

/-- C2 fails as stated: for a file of duration 11 and segment length 11 the start returned
is `0`, so the segment begins at the start of the file and ends at its end. -/
theorem getSegmentStart_whole_file :
    (11 : ℚ) ≤ (flagsOf 11).flagSegmentDuration ∧ (flagsOf 11).flagSegmentDuration ≤ 11 ∧
      getSegmentStart (exampleLib "11" []) (flagsOf 11) (fileOf "clip.mov" "11" []) 0 = Res.ok 0 ∧
      (0 : ℚ) + (flagsOf 11).flagSegmentDuration = 11 := by
  refine ⟨by norm_num [flagsOf], by norm_num [flagsOf], ?_, by norm_num [flagsOf]⟩
  rw [getSegmentStart_eq (exampleLib "11" []) (flagsOf 11) (fileOf "clip.mov" "11" []) 11 rfl
    (by norm_num [flagsOf]) (by norm_num [flagsOf]) 0]
  norm_num [flagsOf, slotHi, slotLo, maxSlots]

/-- C2, amended: for `D ≥ L ≥ 11` and every raw value the start `s` returned is different
from `0` exactly when `D ≥ 2 * L`, and `s + L` is different from `D` exactly when `D` is
neither `L` nor `2 * L`. -/
theorem getSegmentStart_lead_in_trail_out (lib : Lib) (cfg : Flags) (f : File) (D : ℚ)
    (raw : Nat) (hD : lib.ParseFloat f.Format.Duration = Except.ok D)
    (hL : 11 ≤ cfg.flagSegmentDuration) (hDL : cfg.flagSegmentDuration ≤ D) :
    ∃ s : ℚ, getSegmentStart lib cfg f raw = Res.ok s ∧
      (s ≠ 0 ↔ 2 * cfg.flagSegmentDuration ≤ D) ∧
      (s + cfg.flagSegmentDuration ≠ D ↔
        D ≠ cfg.flagSegmentDuration ∧ D ≠ 2 * cfg.flagSegmentDuration) := by
  have hL0 : 0 < cfg.flagSegmentDuration := by linarith
  obtain ⟨k, hk, hlo, hhi⟩ := getSegmentStart_slot lib cfg f D hD hL0 hDL raw
  refine ⟨_, hk, ?_, ?_⟩
  all_goals
    have hq1 := maxSlots_pos hL0 hDL
    have hq : ((maxSlots D cfg.flagSegmentDuration : Int) : ℚ) * cfg.flagSegmentDuration ≤ D :=
      floor_div_mul_le hL0
    have hq' : D < (((maxSlots D cfg.flagSegmentDuration : Int) : ℚ) + 1) *
        cfg.flagSegmentDuration := lt_floor_div_succ_mul hL0
    unfold slotLo at hlo
    unfold slotHi at hhi
    generalize maxSlots D cfg.flagSegmentDuration = q at *
    generalize cfg.flagSegmentDuration = L at *
  · rcases lt_or_le 1 q with h | h
    · have hk1 : 1 ≤ k := by simpa [h] using hlo
      have hk1' : (1 : ℚ) ≤ (k : ℚ) := by exact_mod_cast hk1
      have hq2 : (2 : ℚ) ≤ (q : ℚ) := by exact_mod_cast h
      constructor
      · intro _
        nlinarith
      · intro _
        have : 0 < L * (k : ℚ) := by positivity
        exact ne_of_gt this
    · have hq0 : q = 1 := by omega
      subst hq0
      have hk0 : k = 0 := by
        simp at hlo hhi
        omega
      subst hk0
      constructor
      · intro h0
        simp at h0
      · intro h2
        norm_num at hq'
        linarith
  · rcases lt_trichotomy q 2 with h | h | h
    · have hq0 : q = 1 := by omega
      subst hq0
      have hk0 : k = 0 := by
        simp at hlo hhi
        omega
      subst hk0
      norm_num at hq'
      constructor
      · intro h1
        refine ⟨fun e => h1 (by simp [e]), fun e => by linarith⟩
      · rintro ⟨h1, _⟩ e
        exact h1 (by simpa using e.symm)
    · subst h
      have hk1 : k = 1 := by
        simp at hlo hhi
        omega
      subst hk1
      norm_num at hq hq'
      constructor
      · intro h1
        refine ⟨fun e => by linarith, fun e => h1 (by simp [e]; ring)⟩
      · rintro ⟨_, h2⟩ e
        apply h2
        rw [← e]
        simp
        ring
    · have hk2 : k + 2 ≤ q := by
        have h3 : q > 2 := h
        simp [h3] at hhi
        omega
      have hk2' : (k : ℚ) + 2 ≤ (q : ℚ) := by exact_mod_cast hk2
      have hq3 : (3 : ℚ) ≤ (q : ℚ) := by exact_mod_cast h
      have hlt : L * (k : ℚ) + L < D := by nlinarith
      constructor
      · intro _
        constructor
        · intro e
          nlinarith
        · intro e
          nlinarith
      · intro _
        exact ne_of_lt hlt

/-- C2 amended, at an instance: duration 600, segment length 120, raw value 2. -/
theorem getSegmentStart_lead_in_trail_out_witness :
    ∃ s : ℚ, getSegmentStart (exampleLib "600" []) (flagsOf 120) (fileOf "clip.mov" "600" []) 2
        = Res.ok s ∧
      (s ≠ 0 ↔ 2 * (flagsOf 120).flagSegmentDuration ≤ 600) ∧
      (s + (flagsOf 120).flagSegmentDuration ≠ 600 ↔
        (600 : ℚ) ≠ (flagsOf 120).flagSegmentDuration ∧
          (600 : ℚ) ≠ 2 * (flagsOf 120).flagSegmentDuration) :=
  getSegmentStart_lead_in_trail_out (exampleLib "600" []) (flagsOf 120)
    (fileOf "clip.mov" "600" []) 600 2 rfl (by norm_num [flagsOf]) (by norm_num [flagsOf])

/-! ## Defect offset: range of the result -/

/-- C4: for a segment length `L` and an asset duration `A` with `A < L`, and for all raw
values of the two draws, an offset `o` the selector yields satisfies `0 ≤ o ≤ L - A`, so
that `o + A ≤ L`; and it yields one whenever `int(L) - int(A) ≥ 1`, that is whenever the
bound of the first draw is positive. -/
theorem defectOffsetValue_fits (L A : ℚ) (raw1 raw2 : Nat) (h : A < L) :
    (∀ o : ℚ, defectOffsetValue L A raw1 raw2 = Res.ok o → 0 ≤ o ∧ o ≤ L - A ∧ o + A ≤ L) ∧
    (1 ≤ toInt L - toInt A → ∃ o : ℚ, defectOffsetValue L A raw1 raw2 = Res.ok o) := by
  constructor
  · intro o ho
    rcases le_or_lt (toInt L - toInt A) 0 with hmax | hmax
    · rw [defectOffsetValue_panics L A raw1 raw2 hmax] at ho
      cases ho
    · have h1 : 1 ≤ toInt L - toInt A := hmax
      rw [defectOffsetValue_eq L A raw1 raw2 h1] at ho
      injection ho with ho
      obtain ⟨_, hle⟩ := offset_mem L A raw2 h1
      have htop := offset_top_lt h
      have hle' : (((raw2 : Int) % ((offsetRange L A).2 - (offsetRange L A).1) +
          (offsetRange L A).1 : Int) : ℚ) ≤ ((toInt L - toInt A - 1 : Int) : ℚ) := by
        exact_mod_cast hle
      have hbound : o ≤ L - A := by
        rw [← ho]
        apply max_le
        · linarith
        · linarith
      refine ⟨?_, hbound, by linarith⟩
      rw [← ho]
      exact le_max_left _ _
  · intro h1
    exact ⟨_, defectOffsetValue_eq L A raw1 raw2 h1⟩

/-- C4, at an instance: segment length 120, asset duration 10, raw values 0 and 49. -/
theorem defectOffsetValue_fits_witness :
    defectOffsetValue 120 10 0 49 = Res.ok 50 ∧
      (0 : ℚ) ≤ 50 ∧ (50 : ℚ) ≤ 120 - 10 ∧ (50 : ℚ) + 10 ≤ 120 :=
  have h : defectOffsetValue 120 10 0 49 = Res.ok 50 := by
    norm_num [defectOffsetValue, offsetRange, toInt, Intn]
  ⟨h, (defectOffsetValue_fits 120 10 0 49 (by norm_num)).1 50 h⟩

/-! ## No draw panics -/

theorem Res.ok_bind {α β : Type} (a : α) (k : α → Res β) : (Res.ok a).bind k = k a := rfl

theorem offsetRange_ten {L : ℚ} (hL : 11 ≤ L) :
    1 ≤ (offsetRange L 10).2 ∧ 1 ≤ (offsetRange L 10).2 - (offsetRange L 10).1 := by
  have h11 := toInt_ge_eleven hL
  have h10 := toInt_ten
  simp only [offsetRange, h10]
  split_ifs <;> omega

theorem visualAdCommand_ok (lib : Lib) (cfg : Flags) (f : File) (raw0 raw1 raw2 : Nat)
    (s o : ℚ) (hs : getSegmentStart lib cfg f raw0 = Res.ok s)
    (ho : defectOffsetValue cfg.flagSegmentDuration 10 raw1 raw2 = Res.ok o) :
    visualAdCommand lib cfg f raw0 raw1 raw2 =
      Res.ok (visualAdArgs lib cfg f s (lib.fmtFloat o)) := by
  simp only [visualAdCommand, visualAdDuration, hs, ho, Res.ok_bind]

theorem audioAdCommand_ok (lib : Lib) (cfg : Flags) (f : File) (raw0 raw1 raw2 : Nat)
    (s o : ℚ) (hs : getSegmentStart lib cfg f raw0 = Res.ok s)
    (ho : defectOffsetValue cfg.flagSegmentDuration 10 raw1 raw2 = Res.ok o) :
    audioAdCommand lib cfg f raw0 raw1 raw2 =
      Res.ok (audioAdArgs lib cfg f s (lib.fmtFloat o)) := by
  simp only [audioAdCommand, audioAdDuration, hs, ho, Res.ok_bind]

theorem silenceCommand_ok (lib : Lib) (cfg : Flags) (f : File) (raw0 raw1 raw2 : Nat)
    (s o : ℚ) (hs : getSegmentStart lib cfg f raw0 = Res.ok s)
    (ho : defectOffsetValue cfg.flagSegmentDuration 10 raw1 raw2 = Res.ok o) :
    silenceCommand lib cfg f raw0 raw1 raw2 =
      Res.ok (silenceArgs lib cfg f s (lib.fmtFloat o)) := by
  simp only [silenceCommand, audioAdDuration, hs, ho, Res.ok_bind]

theorem desyncCommand_ok (lib : Lib) (cfg : Flags) (f : File) (raw0 : Nat)
    (s : ℚ) (hs : getSegmentStart lib cfg f raw0 = Res.ok s) :
    desyncCommand lib cfg f raw0 = Res.ok (desyncArgs lib cfg f s) := by
  simp only [desyncCommand, hs, Res.ok_bind]

/-- For `D ≥ L ≥ 11` every builder gets to its command, whatever the raw draws. -/
theorem commands_ok (lib : Lib) (cfg : Flags) (f : File) (D : ℚ)
    (hD : lib.ParseFloat f.Format.Duration = Except.ok D)
    (hL : 11 ≤ cfg.flagSegmentDuration) (hDL : cfg.flagSegmentDuration ≤ D)
    (raw0 raw1 raw2 : Nat) :
    (∃ c, visualAdCommand lib cfg f raw0 raw1 raw2 = Res.ok c) ∧
    (∃ c, audioAdCommand lib cfg f raw0 raw1 raw2 = Res.ok c) ∧
    (∃ c, silenceCommand lib cfg f raw0 raw1 raw2 = Res.ok c) ∧
    (∃ c, desyncCommand lib cfg f raw0 = Res.ok c) := by
  have hL0 : 0 < cfg.flagSegmentDuration := by linarith
  have hseg := getSegmentStart_eq lib cfg f D hD hL0 hDL raw0
  have hoff : 1 ≤ toInt cfg.flagSegmentDuration - toInt 10 := (offsetRange_ten hL).1
  have hval := defectOffsetValue_eq cfg.flagSegmentDuration 10 raw1 raw2 hoff
  exact ⟨⟨_, visualAdCommand_ok lib cfg f raw0 raw1 raw2 _ _ hseg hval⟩,
    ⟨_, audioAdCommand_ok lib cfg f raw0 raw1 raw2 _ _ hseg hval⟩,
    ⟨_, silenceCommand_ok lib cfg f raw0 raw1 raw2 _ _ hseg hval⟩,
    ⟨_, desyncCommand_ok lib cfg f raw0 _ hseg⟩⟩

/-! ## The defect window of the silence and audio ad commands -/

theorem getSegmentStart_example (streams : List Stream) :
    getSegmentStart (exampleLib "600" streams) (flagsOf 120) (fileOf "clip.mov" "600" streams) 0
      = Res.ok 120 := by
  rw [getSegmentStart_eq (exampleLib "600" streams) (flagsOf 120)
    (fileOf "clip.mov" "600" streams) 600 rfl (by norm_num [flagsOf]) (by norm_num [flagsOf]) 0]
  norm_num [flagsOf, slotHi, slotLo, maxSlots]

theorem defectOffsetValue_example : defectOffsetValue 120 10 0 49 = Res.ok 50 := by
  norm_num [defectOffsetValue, offsetRange, toInt, Intn]

/-- For every offset string the window of the silence filter ends at the constant `10`. -/
theorem silenceFilter_eq (defectOffset : String) :
    silenceFilter defectOffset = "volume=0:enable='between(t," ++ defectOffset ++ ",10)'" := by
  unfold silenceFilter
  rw [String.append_assoc, String.append_assoc]
  rfl

/-- For every offset string the attenuation window of a mix chain ends at the formatted ad
duration. -/
theorem mixChain_window (lib : Lib) (defectOffset : String) (s : Stream) :
    mixChain lib defectOffset s =
      "[0:" ++ fmtInt s.Index ++ "]volume=0.25:enable='between(t," ++ defectOffset ++ "," ++
        lib.fmtFloat 10 ++ ")'[a" ++ fmtInt s.Index ++ "],[1:a]volume=1.5[ad" ++
        fmtInt s.Index ++ "],[ad" ++ fmtInt s.Index ++ "][a" ++ fmtInt s.Index ++
        "]amix=inputs=2:duration=longest:dropout_transition=2[a" ++ fmtInt s.Index ++ "]" :=
  rfl

/-- C5, the code at segment length 120 and drawn offset 50: the `-af` value mutes the
interval `between(t,50,10)`, whose end is the constant 10 and not `50 + 10`. -/
theorem silenceCommand_at_offset_50 :
    silenceCommand (exampleLib "600" []) (flagsOf 120) (fileOf "clip.mov" "600" []) 0 0 49 =
      Res.ok ["-ss", "120", "-i", "clip.mov", "-map", "0:v", "-vcodec", "libx264",
        "-pix_fmt", "yuv420p", "-preset", "medium", "-crf", "18", "-acodec", "aac",
        "-map", "0:a", "-ab", "256k", "-ar", "48000",
        "-af", "volume=0:enable='between(t,50,10)'",
        "-t", "120", "-loglevel", "error", "-stats", "-y", "-hide_banner",
        "clip_silence.mp4"] := by
  rw [silenceCommand_ok _ _ _ 0 0 49 120 50 (getSegmentStart_example [])
    defectOffsetValue_example]
  rfl

set_option maxRecDepth 100000 in
/-- C6, the code at segment length 120 and drawn offset 50, for audio streams 2 and 3: the
ad is delayed to start at 50 (`-itsoffset 50`) and lasts 10 seconds, while each mix chain
attenuates the original track during `between(t,50,10)`, whose end is the ad duration 10
and not `50 + 10`. -/
theorem audioAdCommand_at_offset_50 :
    audioAdCommand (exampleLib "600" twoAudioStreams) (flagsOf 120)
        (fileOf "clip.mov" "600" twoAudioStreams) 0 0 49 =
      Res.ok ["-ss", "120", "-i", "clip.mov", "-itsoffset", "50",
        "-i", "./media/yandex_eda_10sec.mp4",
        "-filter_complex",
        "[0:2]volume=0.25:enable='between(t,50,10)'[a2],[1:a]volume=1.5[ad2],[ad2][a2]amix=inputs=2:duration=longest:dropout_transition=2[a2],[0:3]volume=0.25:enable='between(t,50,10)'[a3],[1:a]volume=1.5[ad3],[ad3][a3]amix=inputs=2:duration=longest:dropout_transition=2[a3]",
        "-map", "0:v", "-vcodec", "libx264", "-pix_fmt", "yuv420p", "-preset", "medium",
        "-crf", "18", "-async", "1",
        "-map", "[a2]", "-acodec", "aac", "-ab", "256k", "-ar", "48000",
        "-metadata:s:a:0", "language=rus", "-disposition:a:0", "default",
        "-map", "[a3]", "-acodec", "aac", "-ab", "256k", "-ar", "48000",
        "-metadata:s:a:1", "language=eng", "-disposition:a:1", "none",
        "-metadata:s:a:1", "handler=\"Commentary\"",
        "-t", "120", "-loglevel", "error", "-stats", "-y", "-hide_banner",
        "clip_audio_ad.mp4"] := by
  rw [audioAdCommand_ok _ _ _ 0 0 49 120 50 (getSegmentStart_example twoAudioStreams)
    defectOffsetValue_example]
  rfl

/-! ## The stream loop of the audio ad command -/

theorem TrimSuffix_append (x suffix : String) : TrimSuffix (x ++ suffix) suffix = x := by
  unfold TrimSuffix
  have h : suffix.data.isSuffixOf (x ++ suffix).data = true := by
    rw [List.isSuffixOf_iff_suffix, String.data_append]
    exact List.suffix_append _ _
  rw [if_pos h]
  simp

theorem intercalate_go_append (cs : List String) (acc : String) :
    String.intercalate.go acc "," cs ++ "," =
      acc ++ "," ++ cs.foldr (fun c r => c ++ "," ++ r) "" := by
  induction cs generalizing acc with
  | nil => simp [String.intercalate.go]
  | cons a rest ih =>
    simp only [String.intercalate.go, List.foldr_cons]
    rw [ih]
    simp only [String.append_assoc]

/-- Removing the comma after the last of the comma-terminated chains joins them. -/
theorem TrimSuffix_chains (cs : List String) :
    TrimSuffix (cs.foldr (fun c r => c ++ "," ++ r) "") "," = String.intercalate "," cs := by
  cases cs with
  | nil => rfl
  | cons c rest =>
    have h := intercalate_go_append rest c
    simp only [List.foldr_cons, String.intercalate]
    rw [← h]
    exact TrimSuffix_append _ _

theorem audioStep_audio (lib : Lib) (o : String) (acc : AudioAcc) (s : Stream)
    (h : s.CodecType = "audio") :
    audioStep lib o acc s =
      AudioAcc.mk (acc.filterComplex ++ (mixChain lib o s ++ ","))
        (acc.audioOutput ++ outputTrack acc.i s) (acc.i + 1) := by
  have hc : mixChain lib o s ++ "," =
      "[0:" ++ fmtInt s.Index ++ "]volume=0.25:enable='between(t," ++ o ++ "," ++
        lib.fmtFloat audioAdDuration ++ ")'[a" ++ fmtInt s.Index ++ "],[1:a]volume=1.5[ad" ++
        fmtInt s.Index ++ "],[ad" ++ fmtInt s.Index ++ "][a" ++ fmtInt s.Index ++
        "]amix=inputs=2:duration=longest:dropout_transition=2[a" ++ fmtInt s.Index ++ "]," := by
    unfold mixChain
    rw [String.append_assoc _ "]" ","]
    rfl
  unfold audioStep
  rw [if_pos h, hc]
  by_cases hh : s.Tags.HandlerName = "SoundHandler"
  · simp [outputTrack, hh]
  · simp [outputTrack, hh]

theorem audioStep_other (lib : Lib) (o : String) (acc : AudioAcc) (s : Stream)
    (h : s.CodecType ≠ "audio") : audioStep lib o acc s = acc := by
  unfold audioStep
  rw [if_neg h]

theorem audioStreams_cons_audio (s : Stream) (rest : List Stream) (h : s.CodecType = "audio") :
    audioStreams (s :: rest) = s :: audioStreams rest := by
  simp [audioStreams, h]

theorem audioStreams_cons_other (s : Stream) (rest : List Stream) (h : s.CodecType ≠ "audio") :
    audioStreams (s :: rest) = audioStreams rest := by
  simp [audioStreams, h]

/-- The loop adds one comma-terminated chain and one output track per audio stream. -/
theorem foldl_audioStep (lib : Lib) (o : String) (streams : List Stream) (acc : AudioAcc) :
    streams.foldl (audioStep lib o) acc =
      AudioAcc.mk
        (acc.filterComplex ++
          ((audioStreams streams).map (mixChain lib o)).foldr (fun c r => c ++ "," ++ r) "")
        (acc.audioOutput ++ outputTracks acc.i (audioStreams streams))
        (acc.i + (audioStreams streams).length) := by
  induction streams generalizing acc with
  | nil => simp [audioStreams, outputTracks]
  | cons s rest ih =>
    rw [List.foldl_cons, ih]
    by_cases h : s.CodecType = "audio"
    · rw [audioStep_audio lib o acc s h, audioStreams_cons_audio s rest h]
      simp only [List.map_cons, List.foldr_cons, outputTracks, List.length_cons,
        String.append_assoc, List.append_assoc]
      congr 1
      omega
    · rw [audioStep_other lib o acc s h, audioStreams_cons_other s rest h]

theorem audioLoop_eq (lib : Lib) (o : String) (streams : List Stream) :
    audioLoop lib o streams =
      AudioAcc.mk
        (((audioStreams streams).map (mixChain lib o)).foldr (fun c r => c ++ "," ++ r) "")
        (outputTracks 0 (audioStreams streams)) (audioStreams streams).length := by
  unfold audioLoop
  rw [foldl_audioStep]
  simp

/-- C7: for every probed stream list with audio streams `a_0 … a_{n-1}` in probe order, the
filter graph of `makeAudioAdSegment` is the `n` mix chains of these streams joined by commas
(each labelled with the index of its stream, no trailing comma), and the mapped audio
outputs are the `n` tracks `outputTrack k a_k`: mapped from `[a<index>]`, language and
disposition of `a_k` at audio position `k`, and a handler entry exactly when the handler name
is not `SoundHandler` (12 arguments without it, 14 with it).  Other streams add nothing.
For audio streams with indices 2 and 3 there are two chains and two tracks, each with the
language of its own stream. -/
theorem audioAdArgs_chains_and_tracks (lib : Lib) (cfg : Flags) (f : File) (segmentStart : ℚ)
    (defectOffset : String) :
    audioAdArgs lib cfg f segmentStart defectOffset =
      ["-ss", lib.fmtFloat segmentStart, "-i", f.Format.Filename,
       "-itsoffset", defectOffset, "-i", audioAdPath,
       "-filter_complex",
       String.intercalate "," ((audioStreams f.Streams).map (mixChain lib defectOffset)),
       "-map", "0:v", "-vcodec", "libx264", "-pix_fmt", "yuv420p", "-preset", "medium",
       "-crf", "18", "-async", "1"] ++
      outputTracks 0 (audioStreams f.Streams) ++
      ["-t", lib.fmtFloat cfg.flagSegmentDuration, "-loglevel", "error", "-stats", "-y",
       "-hide_banner", outputPath f.Format.Filename "_audio_ad.mp4"] ∧
    ((audioStreams f.Streams).map (mixChain lib defectOffset)).length =
      (audioStreams f.Streams).length ∧
    (∀ (k : Nat) (s : Stream),
      (outputTrack k s).take 2 = ["-map", "[a" ++ fmtInt s.Index ++ "]"] ∧
      (outputTrack k s).length = if s.Tags.HandlerName = "SoundHandler" then 12 else 14) ∧
    audioStreams twoAudioStreams =
      [Stream.mk 2 "audio" (Disposition.mk 1) (Tags.mk "rus" "SoundHandler"),
       Stream.mk 3 "audio" (Disposition.mk 0) (Tags.mk "eng" "Commentary")] ∧
    String.intercalate "," ((audioStreams twoAudioStreams).map (mixChain lib defectOffset)) =
      mixChain lib defectOffset
          (Stream.mk 2 "audio" (Disposition.mk 1) (Tags.mk "rus" "SoundHandler")) ++ "," ++
        mixChain lib defectOffset
          (Stream.mk 3 "audio" (Disposition.mk 0) (Tags.mk "eng" "Commentary")) ∧
    outputTracks 0 (audioStreams twoAudioStreams) =
      ["-map", "[a2]", "-acodec", "aac", "-ab", "256k", "-ar", "48000",
       "-metadata:s:a:0", "language=rus", "-disposition:a:0", "default",
       "-map", "[a3]", "-acodec", "aac", "-ab", "256k", "-ar", "48000",
       "-metadata:s:a:1", "language=eng", "-disposition:a:1", "none",
       "-metadata:s:a:1", "handler=\"Commentary\""] := by
  refine ⟨?_, by simp, ?_, rfl, rfl, rfl⟩
  · unfold audioAdArgs
    simp only [audioLoop_eq, TrimSuffix_chains]
  · intro k s
    constructor
    · rfl
    · by_cases h : s.Tags.HandlerName = "SoundHandler"
      · simp [outputTrack, h]
      · simp [outputTrack, h]

/-! ## Output paths -/

theorem extScan_eq (r acc : List Char) :
    extScan r acc =
      if '.' ∈ r.takeWhile (fun c => c ≠ '/') then
        '.' :: ((r.takeWhile fun c => c ≠ '.').reverse ++ acc)
      else [] := by
  induction r generalizing acc with
  | nil => simp [extScan]
  | cons c rest ih =>
    unfold extScan
    by_cases h1 : c = '/'
    · simp [h1]
    · by_cases h2 : c = '.'
      · simp [h2]
      · rw [if_neg h1, if_neg h2, ih]
        have h2' : ¬ '.' = c := fun e => h2 e.symm
        simp [h1, h2, h2', List.takeWhile_cons]

theorem takeWhile_dot_takeWhile_slash (r : List Char)
    (h : '.' ∈ r.takeWhile (fun c => c ≠ '/')) :
    (r.takeWhile fun c => c ≠ '/').takeWhile (fun c => c ≠ '.') =
      r.takeWhile fun c => c ≠ '.' := by
  induction r with
  | nil => simp at h
  | cons c rest ih =>
    by_cases h1 : c = '/'
    · simp [h1] at h
    · by_cases h2 : c = '.'
      · simp [h2]
      · have h2' : ¬ '.' = c := fun e => h2 e.symm
        simp only [List.takeWhile_cons, h1, h2, ne_eq, not_false_eq_true, decide_True,
          if_true, List.mem_cons, h2', false_or] at h ⊢
        rw [ih h]

/-- The scan of `filepath.Ext` returns the extension of the specification. -/
theorem Ext_eq_extension (p : String) : (Ext p).data = extension p.data := by
  unfold Ext extension lastElement
  simp only [extScan_eq, List.append_nil, List.mem_reverse, List.reverse_reverse]
  split_ifs with h
  · rw [takeWhile_dot_takeWhile_slash _ h]
  · rfl

theorem extension_suffix (p : List Char) : extension p <:+ p := by
  unfold extension lastElement
  simp only [List.mem_reverse, List.reverse_reverse]
  split_ifs with h
  · rw [takeWhile_dot_takeWhile_slash _ h]
    have hmem : '.' ∈ p.reverse := List.takeWhile_subset _ h
    have hsplit := List.takeWhile_append_dropWhile (fun c => decide (c ≠ '.')) p.reverse
    have hdrop : ∃ t, p.reverse.dropWhile (fun c => decide (c ≠ '.')) = '.' :: t := by
      cases hd : p.reverse.dropWhile (fun c => decide (c ≠ '.')) with
      | nil =>
        rw [hd, List.append_nil] at hsplit
        rw [← hsplit] at hmem
        have := List.mem_takeWhile_imp hmem
        simp at this
      | cons a t =>
        have ha := List.head_dropWhile_not (fun c => decide (c ≠ '.')) p.reverse
          (by rw [hd]; simp)
        simp only [hd, List.head_cons] at ha
        have : a = '.' := by simpa using ha
        exact ⟨t, by rw [this]⟩
    obtain ⟨t, ht⟩ := hdrop
    rw [ht] at hsplit
    refine ⟨t.reverse, ?_⟩
    have := congrArg List.reverse hsplit
    simp only [List.reverse_append, List.reverse_cons, List.reverse_reverse,
      List.append_assoc, List.singleton_append] at this
    simpa using this
  · exact List.nil_suffix

/-- The output path of a builder is the stem of the specification plus the suffix. -/
theorem outputPath_eq_stem (name suffix : String) :
    outputPath name suffix = stem name ++ suffix := by
  unfold outputPath TrimSuffix stem
  have h : (Ext name).data.isSuffixOf name.data = true := by
    rw [List.isSuffixOf_iff_suffix, Ext_eq_extension]
    exact extension_suffix _
  rw [if_pos h, Ext_eq_extension]

theorem getLast?_visualAdArgs (lib : Lib) (cfg : Flags) (f : File) (s : ℚ) (o : String) :
    (visualAdArgs lib cfg f s o).getLast? = some (outputPath f.Format.Filename "_visual_ad.mp4") :=
  rfl

theorem getLast?_audioAdArgs (lib : Lib) (cfg : Flags) (f : File) (s : ℚ) (o : String) :
    (audioAdArgs lib cfg f s o).getLast? = some (outputPath f.Format.Filename "_audio_ad.mp4") := by
  unfold audioAdArgs
  simp only [List.getLast?_append]
  rfl

theorem getLast?_silenceArgs (lib : Lib) (cfg : Flags) (f : File) (s : ℚ) (o : String) :
    (silenceArgs lib cfg f s o).getLast? = some (outputPath f.Format.Filename "_silence.mp4") :=
  rfl

theorem getLast?_desyncArgs (lib : Lib) (cfg : Flags) (f : File) (s : ℚ) :
    (desyncArgs lib cfg f s).getLast? = some (outputPath f.Format.Filename "_desync.mp4") :=
  rfl

theorem bind_ok_getLast? {α : Type} (r : Res α) (g : α → List String) (out : String)
    (hg : ∀ a, (g a).getLast? = some out) (args : List String)
    (h : (r.bind fun a => Res.ok (g a)) = Res.ok args) : args.getLast? = some out := by
  cases r with
  | ok a =>
    simp only [Res.ok_bind] at h
    injection h with h
    rw [← h]
    exact hg a
  | err e => simp [Res.bind] at h
  | panic m => simp [Res.bind] at h

theorem bind_bind_ok_getLast? {α β : Type} (r : Res α) (r2 : Res β) (g : α → β → List String)
    (out : String) (hg : ∀ a b, (g a b).getLast? = some out) (args : List String)
    (h : (r.bind fun a => r2.bind fun b => Res.ok (g a b)) = Res.ok args) :
    args.getLast? = some out := by
  cases r with
  | ok a =>
    simp only [Res.ok_bind] at h
    exact bind_ok_getLast? r2 (g a) out (hg a) args h
  | err e => simp [Res.bind] at h
  | panic m => simp [Res.bind] at h

/-- A guarded builder call adds at most its one command, whose last argument is the output
path; it adds exactly that command when it is not skipped and does not end in a panic. -/
theorem Emits_stage (lib : Lib) (skip : Bool) (draws : Nat)
    (command : World → Res (List String)) (out : String)
    (hcmd : ∀ w args, command w = Res.ok args → args.getLast? = some out) :
    Emits (stage skip fun w => runFfmpeg lib draws (command w) w)
      (if skip then [] else [out]) := by
  intro w
  cases skip with
  | true => exact ⟨[], by simp [stage], by simp, by simp⟩
  | false =>
    simp only [stage, Bool.false_eq_true, if_false]
    cases hc : command w with
    | ok args =>
      have hlast := hcmd w args hc
      cases hr : lib.Run args with
      | none =>
        refine ⟨[args], ?_, ?_, ?_⟩ <;> simp [runFfmpeg, hr, hlast]
      | some e =>
        refine ⟨[args], ?_, ?_, ?_⟩ <;> simp [runFfmpeg, hr, hlast]
    | err e =>
      refine ⟨[], ?_, ?_, ?_⟩ <;> simp [runFfmpeg]
    | panic m =>
      refine ⟨[], ?_, ?_, ?_⟩ <;> simp [runFfmpeg]

theorem Emits_andThen (a b : World → Option String × World) (e1 e2 : List String)
    (ha : Emits a e1) (hb : Emits b e2) : Emits (andThen a b) (e1 ++ e2) := by
  intro w
  obtain ⟨c1, ht1, hp1, hf1⟩ := ha w
  unfold andThen
  cases h : a w with
  | mk r w1 =>
    rw [h] at ht1 hf1
    cases r with
    | none =>
      obtain ⟨c2, ht2, hp2, hf2⟩ := hb w1
      have h1 := hf1 rfl
      refine ⟨c1 ++ c2, ?_, ?_, ?_⟩
      · simp only [ht2]
        simp only at ht1
        rw [ht1, List.append_assoc]
      · simp only [List.map_append, h1]
        exact (List.prefix_append_right_inj _).mpr hp2
      · intro hnone
        simp only [List.map_append, h1, hf2 hnone]
    | some m =>
      refine ⟨c1, ht1, ?_, ?_⟩
      · simp only [List.map_append]
        exact hp1.trans (List.prefix_append _ _)
      · intro hnone
        simp at hnone

theorem makeSegments_emits (lib : Lib) (cfg : Flags) (f : File) :
    Emits (makeSegments lib cfg f) (expectedOutputs cfg f.Format.Filename) := by
  unfold makeSegments expectedOutputs
  simp only [List.append_assoc, ← outputPath_eq_stem]
  refine Emits_andThen _ _ _ _ ?_ (Emits_andThen _ _ _ _ ?_ (Emits_andThen _ _ _ _ ?_ ?_))
  · exact Emits_stage lib _ 3 _ _ fun w args h =>
      bind_bind_ok_getLast? _ _ _ _ (fun a b => getLast?_visualAdArgs lib cfg f a _) args h
  · exact Emits_stage lib _ 3 _ _ fun w args h =>
      bind_bind_ok_getLast? _ _ _ _ (fun a b => getLast?_audioAdArgs lib cfg f a _) args h
  · exact Emits_stage lib _ 3 _ _ fun w args h =>
      bind_bind_ok_getLast? _ _ _ _ (fun a b => getLast?_silenceArgs lib cfg f a _) args h
  · exact Emits_stage lib _ 1 _ _ fun w args h =>
      bind_ok_getLast? _ _ _ (fun a => getLast?_desyncArgs lib cfg f a) args h

theorem stage_completes (lib : Lib) (skip : Bool) (draws : Nat)
    (command : World → Res (List String)) (hcmd : ∀ w, ∃ c, command w = Res.ok c)
    (hrun : ∀ c, lib.Run c = none) (w : World) :
    (stage skip (fun w => runFfmpeg lib draws (command w) w) w).1 = none := by
  obtain ⟨c, hc⟩ := hcmd w
  cases skip <;> simp [stage, runFfmpeg, hc, hrun]

theorem andThen_completes (a b : World → Option String × World)
    (ha : ∀ w, (a w).1 = none) (hb : ∀ w, (b w).1 = none) (w : World) :
    (andThen a b w).1 = none := by
  unfold andThen
  have h := ha w
  cases hw : a w with
  | mk r w1 =>
    rw [hw] at h
    simp only at h
    subst h
    exact hb w1

/-- With `D ≥ L ≥ 11` and an `ffmpeg` that succeeds, the four guarded calls end without
panic. -/
theorem makeSegments_completes (lib : Lib) (cfg : Flags) (f : File) (D : ℚ)
    (hD : lib.ParseFloat f.Format.Duration = Except.ok D)
    (hL : 11 ≤ cfg.flagSegmentDuration) (hDL : cfg.flagSegmentDuration ≤ D)
    (hrun : ∀ c, lib.Run c = none) (w : World) : (makeSegments lib cfg f w).1 = none := by
  unfold makeSegments
  refine andThen_completes _ _ ?_ (andThen_completes _ _ ?_ (andThen_completes _ _ ?_ ?_)) w
  · exact stage_completes lib _ 3 _
      (fun w => (commands_ok lib cfg f D hD hL hDL _ _ _).1) hrun
  · exact stage_completes lib _ 3 _
      (fun w => (commands_ok lib cfg f D hD hL hDL _ _ _).2.1) hrun
  · exact stage_completes lib _ 3 _
      (fun w => (commands_ok lib cfg f D hD hL hDL _ _ _).2.2.1) hrun
  · exact stage_completes lib _ 1 _
      (fun w => (commands_ok lib cfg f D hD hL hDL (lib.rng w.draws) 0 0).2.2.2) hrun

theorem newCommands_of_trace (a : World → Option String × World) (w : World)
    (cmds : List (List String)) (h : (a w).2.trace = w.trace ++ cmds) :
    newCommands a w = cmds := by
  simp [newCommands, h]

/-- With a segment duration of at least 11, `main` on one path that probes to `f` does what
the four guarded calls do from the empty trace. -/
theorem main_single (lib : Lib) (cfg : Flags) (p : String) (f : File)
    (hL : 11 ≤ cfg.flagSegmentDuration) (hp : parseFile lib cfg p = Except.ok f) :
    (main lib cfg [p]).2 = (makeSegments lib cfg f (World.mk 0 [])).2 := by
  unfold main
  rw [if_neg (not_lt.mpr hL)]
  simp only [processFiles, processFile, hp]
  cases h : makeSegments lib cfg f (World.mk 0 []) with
  | mk r w1 =>
    cases r <;> rfl

theorem parseFile_example (name : String) (streams : List Stream) (cfg : Flags)
    (h : cfg.flagSegmentDuration ≤ 600) :
    parseFile (exampleLib "600" streams) cfg name = Except.ok (fileOf name "600" streams) := by
  have hparse : parseDecimal "600" = Except.ok 600 := rfl
  simp only [parseFile, exampleLib, probeAs, hparse, not_lt.mpr h, if_false]
  rfl

/-- C8: for a probed file named `p` and every setting of the four skip toggles, the commands
`main` builds for it are appended to the trace in order; the last argument of each is its
output path; these paths are an initial part of the list `stem p + suffix` over the defect
types not skipped (suffixes `_visual_ad.mp4`, `_audio_ad.mp4`, `_silence.mp4`,
`_desync.mp4`), and they are exactly that list when the calls end without panic, which they
do when `D ≥ L ≥ 11` and `ffmpeg` succeeds.  Here `stem p` is `p` without its extension. -/
theorem makeSegments_outputs (lib : Lib) (cfg : Flags) (f : File) (w : World) :
    (makeSegments lib cfg f w).2.trace = w.trace ++ newCommands (makeSegments lib cfg f) w ∧
    (newCommands (makeSegments lib cfg f) w).map List.getLast? <+:
      (expectedOutputs cfg f.Format.Filename).map some ∧
    ((makeSegments lib cfg f w).1 = none →
      (newCommands (makeSegments lib cfg f) w).map List.getLast? =
        (expectedOutputs cfg f.Format.Filename).map some) ∧
    (∀ D : ℚ, lib.ParseFloat f.Format.Duration = Except.ok D → 11 ≤ cfg.flagSegmentDuration →
      cfg.flagSegmentDuration ≤ D → (∀ c, lib.Run c = none) →
      (newCommands (makeSegments lib cfg f) w).map List.getLast? =
        (expectedOutputs cfg f.Format.Filename).map some) := by
  obtain ⟨cmds, ht, hp, hf⟩ := makeSegments_emits lib cfg f w
  rw [newCommands_of_trace _ w cmds ht]
  exact ⟨ht, hp, hf, fun D hD hL hDL hrun =>
    hf (makeSegments_completes lib cfg f D hD hL hDL hrun w)⟩

/-- C8, at an instance: for `clip.mov` with only the visual ad enabled `main` runs one
command, whose output is `clip_visual_ad.mp4`. -/
theorem makeSegments_outputs_witness :
    ((main (exampleLib "600" twoAudioStreams) (visualOnly 120) ["clip.mov"]).2.trace).map
      List.getLast? = [some "clip_visual_ad.mp4"] := by
  have hp := parseFile_example "clip.mov" twoAudioStreams (visualOnly 120)
    (by norm_num [visualOnly])
  rw [main_single _ _ "clip.mov" _ (by norm_num [visualOnly]) hp]
  have h := makeSegments_outputs (exampleLib "600" twoAudioStreams) (visualOnly 120)
    (fileOf "clip.mov" "600" twoAudioStreams) (World.mk 0 [])
  rw [h.1, List.nil_append]
  exact h.2.2.2 600 rfl (by norm_num [visualOnly]) (by norm_num [visualOnly]) (fun _ => rfl)

/-! ## Probe failures -/

theorem processFiles_append (lib : Lib) (cfg : Flags) (pre rest : List String) (w : World) :
    processFiles lib cfg (pre ++ rest) w =
      match processFiles lib cfg pre w with
      | (none, w1) => processFiles lib cfg rest w1
      | (some m, w1) => (some m, w1) := by
  induction pre generalizing w with
  | nil => simp [processFiles]
  | cons p pre ih =>
    simp only [List.cons_append, processFiles]
    cases h : processFile lib cfg p w with
    | mk r w1 =>
      cases r with
      | none => exact ih w1
      | some m => rfl

theorem processFiles_fail (lib : Lib) (cfg : Flags) (p : String) (post : List String)
    (e : String) (w : World) (h : parseFile lib cfg p = Except.error e) :
    processFiles lib cfg (p :: post) w = (some e, w) := by
  simp [processFiles, processFile, h]

/-- C9: `parseFile` returns an error exactly when the probe fails, or the probed duration
string does not parse, or the parsed duration is smaller than the segment duration, and it
returns the probe result unchanged otherwise; and when `parseFile` fails for a path, the
loop of `main` and `main` itself end in a panic (or exit) with the trace they have after the
paths before it: no command is built or run for that path or a later one. -/
theorem parseFile_error_iff_and_abort (lib : Lib) (cfg : Flags) :
    (∀ p : String, (∃ e, parseFile lib cfg p = Except.error e) ↔
      ((∃ e, lib.Probe p = Except.error e) ∨
       (∃ f e, lib.Probe p = Except.ok f ∧ lib.ParseFloat f.Format.Duration = Except.error e) ∨
       (∃ f d, lib.Probe p = Except.ok f ∧ lib.ParseFloat f.Format.Duration = Except.ok d ∧
          d < cfg.flagSegmentDuration))) ∧
    (∀ (p : String) (f : File), parseFile lib cfg p = Except.ok f → lib.Probe p = Except.ok f) ∧
    (∀ (p : String) (f : File), lib.Probe p = Except.ok f →
      (¬ ∃ e, parseFile lib cfg p = Except.error e) → parseFile lib cfg p = Except.ok f) ∧
    (∀ (pre : List String) (p : String) (post : List String) (e : String) (w : World),
      parseFile lib cfg p = Except.error e →
      (processFiles lib cfg (pre ++ p :: post) w).1 ≠ none ∧
      (processFiles lib cfg (pre ++ p :: post) w).2 = (processFiles lib cfg pre w).2) ∧
    (∀ (pre : List String) (p : String) (post : List String) (e : String),
      parseFile lib cfg p = Except.error e →
      (main lib cfg (pre ++ p :: post)).1 ≠ Outcome.done ∧
      (main lib cfg (pre ++ p :: post)).2 = (main lib cfg pre).2) := by
  have habort : ∀ (pre : List String) (p : String) (post : List String) (e : String)
      (w : World), parseFile lib cfg p = Except.error e →
      (processFiles lib cfg (pre ++ p :: post) w).1 ≠ none ∧
      (processFiles lib cfg (pre ++ p :: post) w).2 = (processFiles lib cfg pre w).2 := by
    intro pre p post e w h
    rw [processFiles_append]
    cases hpre : processFiles lib cfg pre w with
    | mk r w1 =>
      cases r with
      | none => simp [processFiles_fail lib cfg p post e w1 h]
      | some m => simp
  refine ⟨?_, ?_, ?_, habort, ?_⟩
  · intro p
    unfold parseFile
    cases hprobe : lib.Probe p with
    | error e => simp
    | ok f =>
      cases hparse : lib.ParseFloat f.Format.Duration with
      | error e => simp [hparse]
      | ok d =>
        by_cases hd : d < cfg.flagSegmentDuration
        · simp [hparse, hd]
        · simp [hparse, hd]
  · intro p f
    unfold parseFile
    cases hprobe : lib.Probe p with
    | error e => simp
    | ok g =>
      cases hparse : lib.ParseFloat g.Format.Duration with
      | error e => simp [hparse]
      | ok d =>
        by_cases hd : d < cfg.flagSegmentDuration
        · simp [hparse, hd]
        · simp [hparse, hd]
  · intro p f hprobe hno
    cases h : parseFile lib cfg p with
    | error e => exact absurd ⟨e, h⟩ hno
    | ok g =>
      unfold parseFile at h
      rw [hprobe] at h
      cases hparse : lib.ParseFloat f.Format.Duration with
      | error e => simp [hparse] at h
      | ok d =>
        by_cases hd : d < cfg.flagSegmentDuration
        · simp [hparse, hd] at h
        · simp only [hparse, hd, if_false] at h
          exact h.symm
  · intro pre p post e h
    unfold main
    by_cases hL : cfg.flagSegmentDuration < 11
    · simp [hL]
    · simp only [hL, if_false]
      obtain ⟨h1, h2⟩ := habort pre p post e (World.mk 0 []) h
      cases hall : processFiles lib cfg (pre ++ p :: post) (World.mk 0 []) with
      | mk r w1 =>
        rw [hall] at h1 h2
        cases hpre : processFiles lib cfg pre (World.mk 0 []) with
        | mk r2 w2 =>
          rw [hpre] at h2
          cases r with
          | none => simp at h1
          | some m =>
            cases r2 <;> simpa using h2

theorem parseFile_short_example (name : String) :
    parseFile (exampleLib "60" []) (flagsOf 120) name =
      Except.error "File duration (60) is smaller then duration flag (120)" := by
  have hparse : parseDecimal "60" = Except.ok 60 := rfl
  have hlt : (60 : ℚ) < (flagsOf 120).flagSegmentDuration := by norm_num [flagsOf]
  simp only [parseFile, exampleLib, probeAs, hparse, hlt, if_true]
  rfl

/-- C9, at an instance: the files last 60 seconds and the segment duration is 120, so
`main` panics at the first path with an empty trace. -/
theorem parseFile_error_iff_and_abort_witness :
    (main (exampleLib "60" []) (flagsOf 120) ([] ++ "a.mov" :: ["b.mov"])).1 ≠ Outcome.done ∧
    (main (exampleLib "60" []) (flagsOf 120) ([] ++ "a.mov" :: ["b.mov"])).2 =
      (main (exampleLib "60" []) (flagsOf 120) []).2 :=
  (parseFile_error_iff_and_abort (exampleLib "60" []) (flagsOf 120)).2.2.2.2 [] "a.mov"
    ["b.mov"] _ (parseFile_short_example "a.mov")

/-! ## Rounding to binary64 -/

theorem log2_eq {x : ℚ} {e : Int} (hx : 0 < x) (hlo : (2 : ℚ) ^ e ≤ x)
    (hhi : x < (2 : ℚ) ^ (e + 1)) : Int.log 2 x = e := by
  have h1 : e ≤ Int.log 2 x := by
    rw [← Int.zpow_le_iff_le_log (by norm_num) hx]
    exact_mod_cast hlo
  have h2 : Int.log 2 x < e + 1 := by
    rw [← Int.lt_zpow_iff_log_lt (by norm_num) hx]
    exact_mod_cast hhi
  omega

theorem roundEven_intCast (n : Int) : roundEven (n : ℚ) = n := by
  simp [roundEven]

theorem abs_roundEven_sub_le (y : ℚ) : |((roundEven y : Int) : ℚ) - y| ≤ 1 / 2 := by
  have h1 := Int.floor_le y
  have h2 := Int.lt_floor_add_one y
  unfold roundEven
  split_ifs with ha hb hc
  · rw [abs_le]
    constructor <;> linarith
  · rw [abs_le]
    push_cast
    constructor <;> linarith
  · rw [abs_le]
    constructor <;> linarith
  · rw [abs_le]
    push_cast
    constructor <;> linarith

theorem roundEven_eq_of_lt {y : ℚ} {m : Int} (h1 : (m : ℚ) - 1 / 2 < y)
    (h2 : y < (m : ℚ) + 1 / 2) : roundEven y = m := by
  have hb := abs_roundEven_sub_le y
  rw [abs_le] at hb
  have h3 : ((roundEven y : Int) : ℚ) < (m : ℚ) + 1 := by linarith [hb.2]
  have h4 : (m : ℚ) - 1 < ((roundEven y : Int) : ℚ) := by linarith [hb.1]
  have h5 : roundEven y < m + 1 := by exact_mod_cast h3
  have h6 : m - 1 < roundEven y := by exact_mod_cast h4
  omega

theorem ulpExp_eq {x : ℚ} {e : Int} (hx : x ≠ 0) (he : -1022 ≤ e) (hlo : (2 : ℚ) ^ e ≤ |x|)
    (hhi : |x| < (2 : ℚ) ^ (e + 1)) : ulpExp x = e - 52 := by
  unfold ulpExp
  rw [log2_eq (abs_pos.mpr hx) hlo hhi, max_eq_left he]

/-- Rounding evaluated: in the binade `[2 ^ e, 2 ^ (e + 1))` the result is `m` units of
`2 ^ (e - 52)`, where `m` is the nearest integer to the scaled value. -/
theorem round64_eq_of {x : ℚ} {e m : Int} (hx : x ≠ 0) (he : -1022 ≤ e)
    (hlo : (2 : ℚ) ^ e ≤ |x|) (hhi : |x| < (2 : ℚ) ^ (e + 1))
    (hm : roundEven (x / (2 : ℚ) ^ (e - 52)) = m)
    (hfin : |(m : ℚ) * (2 : ℚ) ^ (e - 52)| < (2 : ℚ) ^ 1024) :
    round64 x = F64.fin ((m : ℚ) * (2 : ℚ) ^ (e - 52)) := by
  unfold round64
  rw [if_neg hx, ulpExp_eq hx he hlo hhi, hm, if_neg (not_le.mpr hfin)]

/-- For `x ≥ 1` the binary exponent is not negative and brackets `x`. -/
theorem log2_bracket {x : ℚ} (hx : 1 ≤ x) :
    0 ≤ Int.log 2 x ∧ (2 : ℚ) ^ Int.log 2 x ≤ x ∧ x < (2 : ℚ) ^ (Int.log 2 x + 1) := by
  have h0 : 0 < x := by linarith
  refine ⟨?_, ?_, ?_⟩
  · rw [← Int.zpow_le_iff_le_log (by norm_num) h0]
    simpa using hx
  · exact_mod_cast Int.zpow_log_le_self (b := 2) (by norm_num) h0
  · exact_mod_cast Int.lt_zpow_succ_log_self (b := 2) (by norm_num) x

theorem ulpExp_of_one_le {x : ℚ} (hx : 1 ≤ x) : ulpExp x = Int.log 2 x - 52 := by
  have h := (log2_bracket hx).1
  unfold ulpExp
  rw [abs_of_pos (by linarith), max_eq_left (by omega)]

theorem two_zpow_pos (e : Int) : (0 : ℚ) < (2 : ℚ) ^ e := zpow_pos (by norm_num) e

theorem two_zpow_sub (e : Int) : (2 : ℚ) ^ (e - 52) = (2 : ℚ) ^ e / 2 ^ 52 := by
  rw [zpow_sub₀ (by norm_num)]
  norm_num

theorem two_zpow_succ (e : Int) : (2 : ℚ) ^ (e + 1) = (2 : ℚ) ^ e * 2 := by
  rw [zpow_add₀ (by norm_num)]
  norm_num

/-- The rounding error: for `1 ≤ x < 2 ^ 1023` the result is finite and within
`x / 2 ^ 53` of `x`. -/
theorem round64_error {x : ℚ} (hx : 1 ≤ x) (hbig : x < (2 : ℚ) ^ 1023) :
    ∃ y : ℚ, round64 x = F64.fin y ∧ |y - x| ≤ x / 2 ^ 53 := by
  obtain ⟨h0, hlo, hhi⟩ := log2_bracket hx
  have hx0 : x ≠ 0 := by linarith
  have hu := two_zpow_pos (Int.log 2 x - 52)
  have hue : (2 : ℚ) ^ (Int.log 2 x - 52) = (2 : ℚ) ^ Int.log 2 x / 2 ^ 52 := two_zpow_sub _
  have herr := abs_roundEven_sub_le (x / (2 : ℚ) ^ (Int.log 2 x - 52))
  have hmul : |((roundEven (x / (2 : ℚ) ^ (Int.log 2 x - 52)) : Int) : ℚ) *
      (2 : ℚ) ^ (Int.log 2 x - 52) - x| ≤ (2 : ℚ) ^ (Int.log 2 x - 52) / 2 := by
    have : ((roundEven (x / (2 : ℚ) ^ (Int.log 2 x - 52)) : Int) : ℚ) *
        (2 : ℚ) ^ (Int.log 2 x - 52) - x =
        (((roundEven (x / (2 : ℚ) ^ (Int.log 2 x - 52)) : Int) : ℚ) -
          x / (2 : ℚ) ^ (Int.log 2 x - 52)) * (2 : ℚ) ^ (Int.log 2 x - 52) := by
      field_simp
    rw [this, abs_mul, abs_of_pos hu]
    calc _ ≤ 1 / 2 * (2 : ℚ) ^ (Int.log 2 x - 52) := by
          exact mul_le_mul_of_nonneg_right herr hu.le
      _ = _ := by ring
  have hbound : (2 : ℚ) ^ (Int.log 2 x - 52) / 2 ≤ x / 2 ^ 53 := by
    rw [hue]
    have : (2 : ℚ) ^ Int.log 2 x / 2 ^ 52 / 2 = (2 : ℚ) ^ Int.log 2 x / 2 ^ 53 := by
      norm_num
      ring
    rw [this]
    exact div_le_div_of_nonneg_right hlo (by positivity)
  have hle := hmul.trans hbound
  refine ⟨_, ?_, hle⟩
  unfold round64
  rw [if_neg hx0, ulpExp_of_one_le hx, if_neg]
  rw [not_le]
  rw [abs_le] at hle
  have hsmall : x / 2 ^ 53 ≤ x := div_le_self (by linarith) (by norm_num)
  have hy : ((roundEven (x / (2 : ℚ) ^ (Int.log 2 x - 52)) : Int) : ℚ) *
      (2 : ℚ) ^ (Int.log 2 x - 52) ≤ 2 * x := by linarith [hle.2]
  have hy0 : 0 ≤ ((roundEven (x / (2 : ℚ) ^ (Int.log 2 x - 52)) : Int) : ℚ) *
      (2 : ℚ) ^ (Int.log 2 x - 52) := by linarith [hle.1]
  rw [abs_of_nonneg hy0]
  have : (2 : ℚ) ^ 1024 = 2 * (2 : ℚ) ^ 1023 := by norm_num
  linarith

/-- Natural numbers below `2 ^ 53` are binary64 values. -/
theorem round64_natCast (n : Nat) (hn : n < 2 ^ 53) : round64 (n : ℚ) = F64.fin n := by
  rcases Nat.eq_zero_or_pos n with rfl | hpos
  · simp [round64]
  have hx : (1 : ℚ) ≤ (n : ℚ) := by exact_mod_cast hpos
  obtain ⟨h0, hlo, hhi⟩ := log2_bracket hx
  have hx0 : (n : ℚ) ≠ 0 := by linarith
  have hlog : Int.log 2 (n : ℚ) = (Nat.log 2 n : Int) := Int.log_natCast 2 n
  have hle52 : Nat.log 2 n ≤ 52 := by
    have := Nat.log_lt_of_lt_pow (by omega) hn
    omega
  obtain ⟨j, hj⟩ : ∃ j : Nat, Nat.log 2 n + j = 52 := ⟨52 - Nat.log 2 n, by omega⟩
  have hu : (2 : ℚ) ^ (Int.log 2 (n : ℚ) - 52) = 1 / (2 : ℚ) ^ j := by
    rw [hlog]
    have : ((Nat.log 2 n : Int) - 52) = -(j : Int) := by omega
    rw [this, zpow_neg, zpow_natCast]
    simp
  have hscaled : (n : ℚ) / (2 : ℚ) ^ (Int.log 2 (n : ℚ) - 52) = (((n * 2 ^ j : Nat) : Int) : ℚ) := by
    rw [hu]
    push_cast
    field_simp
  have hval : ((((n * 2 ^ j : Nat) : Int) : Int) : ℚ) * (2 : ℚ) ^ (Int.log 2 (n : ℚ) - 52)
      = (n : ℚ) := by
    rw [hu]
    push_cast
    field_simp
  unfold round64
  rw [if_neg hx0, ulpExp_of_one_le hx, hscaled, roundEven_intCast, hval, if_neg]
  rw [not_le, abs_of_pos (by linarith)]
  have h53 : (n : ℚ) < 2 ^ 53 := by exact_mod_cast hn
  have : (2 : ℚ) ^ 53 < 2 ^ 1024 := by norm_num
  linarith

/-! ## The slot count on the machine -/

theorem wrap64_of_range {n : Int} (h1 : -9223372036854775808 ≤ n)
    (h2 : n < 9223372036854775808) : wrap64 n = n := by
  unfold wrap64
  norm_num
  omega

theorem toInt_eq_of {x : ℚ} {n : Int} (h0 : 0 ≤ x) (h1 : (n : ℚ) ≤ x) (h2 : x < (n : ℚ) + 1) :
    toInt x = n := by
  rw [toInt_of_nonneg h0, Int.floor_eq_iff]
  exact ⟨h1, h2⟩

theorem toInt64_fin (conv : F64 → Int) {x : ℚ} {n : Int} (h0 : 0 ≤ x) (h1 : (n : ℚ) ≤ x)
    (h2 : x < (n : ℚ) + 1) (hn : n < 2 ^ 63) : F64.toInt64 conv (F64.fin x) = n := by
  have hx := toInt_eq_of h0 h1 h2
  have hn0 : 0 ≤ n := by
    rw [← hx, toInt_of_nonneg h0]
    exact Int.floor_nonneg.mpr h0
  have hr : -2 ^ 63 ≤ n ∧ n < 2 ^ 63 := ⟨by norm_num; omega, hn⟩
  simp only [F64.toInt64, hx, hr, and_self, if_true]

theorem mod_fin (D L : ℚ) (hL : 0 < L) (hD : 0 ≤ D) :
    F64.mod (F64.fin D) (F64.fin L) = F64.fin (D - L * ((maxSlots D L : Int) : ℚ)) := by
  simp only [F64.mod, if_neg (ne_of_gt hL), mathMod_of_nonneg (div_nonneg hD hL.le)]
  rfl

/-- The argument of the conversion in line 118, for finite operands: the rounded quotient
of the rounded difference. -/
theorem quotient_fin (D L : ℚ) (hL : 0 < L) (hD : 0 ≤ D) (a : ℚ)
    (ha : round64 (L * ((maxSlots D L : Int) : ℚ)) = F64.fin a) :
    F64.div (F64.sub (F64.fin D) (F64.mod (F64.fin D) (F64.fin L))) (F64.fin L) =
      round64 (a / L) := by
  rw [mod_fin D L hL hD]
  have hsub : D - (D - L * ((maxSlots D L : Int) : ℚ)) = L * ((maxSlots D L : Int) : ℚ) := by
    ring
  simp only [F64.sub, hsub, ha, F64.div, if_neg (ne_of_gt hL)]

/-- For a binary64 `L ≥ 11` and `L ≤ D < 2 ^ 53` the slot count of line 118 is
`floor (D / L)` or one less, and at least 1. -/
theorem slotCount64 (conv : F64 → Int) (D L : ℚ) (hL64 : IsBinary64 L) (hL : 11 ≤ L)
    (hDL : L ≤ D) (hbig : D < 2 ^ 53) :
    ∃ m : Int, F64.toInt64 conv
        (F64.div (F64.sub (F64.fin D) (F64.mod (F64.fin D) (F64.fin L))) (F64.fin L)) = m ∧
      1 ≤ m ∧ maxSlots D L - 1 ≤ m ∧ m ≤ maxSlots D L := by
  have hL0 : 0 < L := by linarith
  have hD0 : 0 ≤ D := by linarith
  have hq1 : 1 ≤ maxSlots D L := maxSlots_pos hL0 hDL
  have hqL : ((maxSlots D L : Int) : ℚ) * L ≤ D := floor_div_mul_le hL0
  have hq1' : (1 : ℚ) ≤ ((maxSlots D L : Int) : ℚ) := by exact_mod_cast hq1
  have hqbig : ((maxSlots D L : Int) : ℚ) < 2 ^ 50 := by
    have h11 : ((maxSlots D L : Int) : ℚ) * 11 ≤ D := by nlinarith
    norm_num at hbig ⊢
    linarith
  have hq63 : maxSlots D L < 2 ^ 63 := by
    have : ((maxSlots D L : Int) : ℚ) < ((2 ^ 63 : Int) : ℚ) := by
      norm_num at hqbig ⊢
      linarith
    exact_mod_cast this
  rcases eq_or_lt_of_le hq1 with h1 | h2
  · -- one slot: nothing is rounded
    have ha : round64 (L * ((maxSlots D L : Int) : ℚ)) = F64.fin L := by
      rw [← h1]
      simpa using hL64
    refine ⟨1, ?_, le_refl _, by omega, by omega⟩
    rw [quotient_fin D L hL0 hD0 L ha, div_self (ne_of_gt hL0)]
    have h1r : round64 1 = F64.fin 1 := by
      have := round64_natCast 1 (by norm_num)
      simpa using this
    rw [h1r]
    exact toInt64_fin conv (by norm_num) (by norm_num) (by norm_num) (by norm_num)
  · have hq2 : (2 : ℚ) ≤ ((maxSlots D L : Int) : ℚ) := by exact_mod_cast h2
    have hx1 : (1 : ℚ) ≤ L * ((maxSlots D L : Int) : ℚ) := by nlinarith
    have hx1big : L * ((maxSlots D L : Int) : ℚ) < 2 ^ 1023 := by
      have : (2 : ℚ) ^ 53 < 2 ^ 1023 := by norm_num
      linarith
    obtain ⟨a, ha, haerr⟩ := round64_error hx1 hx1big
    rw [abs_le] at haerr
    -- the quotient `t = a / L` is within `q / 2 ^ 53` of `q`
    have ht1 : ((maxSlots D L : Int) : ℚ) - ((maxSlots D L : Int) : ℚ) / 2 ^ 53 ≤ a / L := by
      rw [le_div_iff₀ hL0]
      have : (((maxSlots D L : Int) : ℚ) - ((maxSlots D L : Int) : ℚ) / 2 ^ 53) * L =
          L * ((maxSlots D L : Int) : ℚ) - L * ((maxSlots D L : Int) : ℚ) / 2 ^ 53 := by ring
      rw [this]
      linarith [haerr.1]
    have ht2 : a / L ≤ ((maxSlots D L : Int) : ℚ) + ((maxSlots D L : Int) : ℚ) / 2 ^ 53 := by
      rw [div_le_iff₀ hL0]
      have : (((maxSlots D L : Int) : ℚ) + ((maxSlots D L : Int) : ℚ) / 2 ^ 53) * L =
          L * ((maxSlots D L : Int) : ℚ) + L * ((maxSlots D L : Int) : ℚ) / 2 ^ 53 := by ring
      rw [this]
      linarith [haerr.2]
    have ht1' : (1 : ℚ) ≤ a / L := by
      norm_num at ht1 hqbig ⊢
      linarith
    have htbig : a / L < 2 ^ 1023 := by
      have : (2 : ℚ) ^ 51 < 2 ^ 1023 := by norm_num
      norm_num at ht2 hqbig this ⊢
      linarith
    obtain ⟨b, hb, hberr⟩ := round64_error ht1' htbig
    rw [abs_le] at hberr
    have hb1 : ((maxSlots D L : Int) : ℚ) - 1 / 2 < b := by
      norm_num at ht1 ht2 hqbig hberr ⊢
      linarith [hberr.1]
    have hb2 : b < ((maxSlots D L : Int) : ℚ) + 1 / 2 := by
      norm_num at ht1 ht2 hqbig hberr ⊢
      linarith [hberr.2]
    have hb0 : 0 ≤ b := by linarith
    rw [quotient_fin D L hL0 hD0 a ha, hb]
    rcases le_or_lt ((maxSlots D L : Int) : ℚ) b with hge | hlt
    · refine ⟨maxSlots D L, ?_, hq1, by omega, le_refl _⟩
      exact toInt64_fin conv hb0 hge (by linarith) hq63
    · refine ⟨maxSlots D L - 1, ?_, by omega, le_refl _, by omega⟩
      refine toInt64_fin conv hb0 ?_ ?_ (by omega)
      · push_cast
        linarith
      · push_cast
        linarith

theorem round64_intCast {k : Int} (h0 : 0 ≤ k) (h1 : k < 2 ^ 53) :
    round64 (k : ℚ) = F64.fin k := by
  have h := round64_natCast k.toNat (by
    have : (k.toNat : Int) < 2 ^ 53 := by rw [Int.toNat_of_nonneg h0]; exact h1
    exact_mod_cast this)
  have hc : ((k.toNat : Nat) : ℚ) = (k : ℚ) := by
    have : ((k.toNat : Int) : ℚ) = (k : ℚ) := by rw [Int.toNat_of_nonneg h0]
    exact_mod_cast this
  rwa [hc] at h

/-- The draw on the machine, given the slot count `m` of line 118 with `1 ≤ m < 2 ^ 53`:
it does not panic and the start is the rounded product of `L` and a slot `k` of the range
`[lo, hi)` computed from `m`. -/
theorem segmentStartOf64_of_count (conv : F64 → Int) (D L : F64) (x : ℚ) (hLx : L = F64.fin x)
    (raw : Nat) (m : Int)
    (hm : F64.toInt64 conv (F64.div (F64.sub D (F64.mod D L)) L) = m)
    (h1 : 1 ≤ m) (hbig : m < 2 ^ 53) :
    ∃ k : Int, segmentStartOf64 conv D L raw = Res.ok (round64 (x * (k : ℚ))) ∧
      (if m > 1 then 1 else 0) ≤ k ∧ k < (if m > 2 then m - 1 else m) ∧
      k = (raw : Int) % ((if m > 2 then m - 1 else m) - (if m > 1 then 1 else 0)) +
        (if m > 1 then 1 else 0) := by
  have hbig' : m < 9007199254740992 := by
    have h := hbig
    norm_num at h
    exact h
  have hw1 : wrap64 (m - 1) = m - 1 := wrap64_of_range (by omega) (by omega)
  have hrange : slotRange64 conv D L =
      (if m > 1 then 1 else 0, if m > 2 then m - 1 else m) := by
    simp only [slotRange64, hm, hw1]
  have key : ∀ lo hi : Int, 0 ≤ lo → lo < hi → hi ≤ m → slotRange64 conv D L = (lo, hi) →
      ∃ k : Int, segmentStartOf64 conv D L raw = Res.ok (round64 (x * (k : ℚ))) ∧
        lo ≤ k ∧ k < hi ∧ k = (raw : Int) % (hi - lo) + lo := by
    intro lo hi hlo hlt hhi hr
    have hpos : 0 < hi - lo := by omega
    have hw2 : wrap64 (hi - lo) = hi - lo := wrap64_of_range (by omega) (by omega)
    have hr1 := Int.emod_nonneg (raw : Int) (ne_of_gt hpos)
    have hr2 := Int.emod_lt_of_pos (raw : Int) hpos
    have hw3 : wrap64 ((raw : Int) % (hi - lo) + lo) = (raw : Int) % (hi - lo) + lo :=
      wrap64_of_range (by omega) (by omega)
    have hk53 : (raw : Int) % (hi - lo) + lo < 2 ^ 53 := by
      norm_num
      omega
    refine ⟨_, ?_, by omega, by omega, rfl⟩
    unfold segmentStartOf64
    rw [hr]
    dsimp only
    rw [hw2, Intn_of_pos raw hpos]
    dsimp only
    rw [hw3, hLx]
    simp only [F64.ofInt, round64_intCast (by omega) hk53, F64.mul]
  exact key _ _ (by split_ifs <;> omega) (by split_ifs <;> omega) (by split_ifs <;> omega)
    hrange

/-- The rounded product `L * k` stays inside the file when two more slots fit, and is exact
for `k ≤ 1`. -/
theorem product_within (D L : ℚ) (k q : Int) (hL64 : IsBinary64 L) (hL : 11 ≤ L)
    (hbig : D < 2 ^ 53) (hq : (q : ℚ) * L ≤ D) (hk0 : 0 ≤ k)
    (hk1 : k + 1 ≤ q) (hk2 : 2 ≤ k → k + 2 ≤ q) :
    ∃ s : ℚ, round64 (L * (k : ℚ)) = F64.fin s ∧ 0 ≤ s ∧ s + L ≤ D := by
  have hL0 : 0 < L := by linarith
  rcases lt_or_le k 2 with hsmall | hlarge
  · have hk : k = 0 ∨ k = 1 := by omega
    rcases hk with rfl | rfl
    · refine ⟨0, by simp [round64], le_refl _, ?_⟩
      have : (1 : ℚ) ≤ (q : ℚ) := by exact_mod_cast hk1
      nlinarith
    · refine ⟨L, by simpa using hL64, hL0.le, ?_⟩
      have : (2 : ℚ) ≤ (q : ℚ) := by exact_mod_cast hk1
      nlinarith
  · have hkq : (k : ℚ) + 2 ≤ (q : ℚ) := by exact_mod_cast hk2 hlarge
    have hk2' : (2 : ℚ) ≤ (k : ℚ) := by exact_mod_cast hlarge
    have hx1 : (1 : ℚ) ≤ L * (k : ℚ) := by nlinarith
    have hxD : L * (k : ℚ) + 2 * L ≤ D := by nlinarith
    have hxbig : L * (k : ℚ) < 2 ^ 1023 := by
      have : (2 : ℚ) ^ 53 < 2 ^ 1023 := by norm_num
      linarith
    obtain ⟨s, hs, herr⟩ := round64_error hx1 hxbig
    rw [abs_le] at herr
    refine ⟨s, hs, ?_, ?_⟩
    · have : L * (k : ℚ) / 2 ^ 53 ≤ L * (k : ℚ) := div_le_self (by linarith) (by norm_num)
      linarith [herr.1]
    · have : L * (k : ℚ) / 2 ^ 53 < 1 := by
        rw [div_lt_one (by norm_num)]
        linarith
      linarith [herr.2]

/-- Rounding evaluated with an explicit unit `u = 2 ^ (e - 52)`: a positive `x` of the
binade `[2 ^ 52 * u, 2 ^ 53 * u)` that lies within half a unit of `m * u` rounds to it. -/
theorem round64_of_unit {x u : ℚ} {e m : Int} (hx : 0 < x) (he : -1022 ≤ e)
    (hu : u = (2 : ℚ) ^ (e - 52)) (hlo : 2 ^ 52 * u ≤ x) (hhi : x < 2 ^ 53 * u)
    (h1 : ((m : ℚ) - 1 / 2) * u < x) (h2 : x < ((m : ℚ) + 1 / 2) * u)
    (hfin : (m : ℚ) * u < 2 ^ 1024) (hm0 : 0 ≤ m) :
    round64 x = F64.fin ((m : ℚ) * u) := by
  subst hu
  have hp := two_zpow_pos (e - 52)
  have hz : (2 : ℚ) ^ 52 * (2 : ℚ) ^ (e - 52) = (2 : ℚ) ^ e := by
    rw [two_zpow_sub]
    field_simp
  have hz' : (2 : ℚ) ^ 53 * (2 : ℚ) ^ (e - 52) = (2 : ℚ) ^ (e + 1) := by
    rw [two_zpow_succ, ← hz]
    ring
  have hm0' : (0 : ℚ) ≤ (m : ℚ) := by exact_mod_cast hm0
  refine round64_eq_of (ne_of_gt hx) he ?_ ?_ ?_ ?_
  · rw [abs_of_pos hx, ← hz]
    exact hlo
  · rw [abs_of_pos hx, ← hz']
    exact hhi
  · apply roundEven_eq_of_lt
    · rw [lt_div_iff₀ hp]
      exact h1
    · rw [div_lt_iff₀ hp]
      exact h2
  · rw [abs_of_nonneg (mul_nonneg hm0' hp.le)]
    exact hfin

theorem roundEven_tie_even {m : Int} (hev : m % 2 = 0) :
    roundEven ((m : ℚ) + 1 / 2) = m := by
  have hfl : ⌊(m : ℚ) + 1 / 2⌋ = m := by
    rw [Int.floor_eq_iff]
    constructor <;> norm_num
  unfold roundEven
  rw [hfl]
  norm_num [hev]

/-- Rounding evaluated at a tie: a positive `x` exactly half way between `m * u` and
`(m + 1) * u` rounds to `m * u` when `m` is even. -/
theorem round64_of_tie {x u : ℚ} {e m : Int} (hx : 0 < x) (he : -1022 ≤ e)
    (hu : u = (2 : ℚ) ^ (e - 52)) (hlo : 2 ^ 52 * u ≤ x) (hhi : x < 2 ^ 53 * u)
    (htie : x = ((m : ℚ) + 1 / 2) * u) (hev : m % 2 = 0)
    (hfin : (m : ℚ) * u < 2 ^ 1024) (hm0 : 0 ≤ m) :
    round64 x = F64.fin ((m : ℚ) * u) := by
  subst hu
  have hp := two_zpow_pos (e - 52)
  have hz : (2 : ℚ) ^ 52 * (2 : ℚ) ^ (e - 52) = (2 : ℚ) ^ e := by
    rw [two_zpow_sub]
    field_simp
  have hz' : (2 : ℚ) ^ 53 * (2 : ℚ) ^ (e - 52) = (2 : ℚ) ^ (e + 1) := by
    rw [two_zpow_succ, ← hz]
    ring
  have hm0' : (0 : ℚ) ≤ (m : ℚ) := by exact_mod_cast hm0
  refine round64_eq_of (ne_of_gt hx) he ?_ ?_ ?_ ?_
  · rw [abs_of_pos hx, ← hz]
    exact hlo
  · rw [abs_of_pos hx, ← hz']
    exact hhi
  · have : x / (2 : ℚ) ^ (e - 52) = (m : ℚ) + 1 / 2 := by
      rw [htie]
      field_simp
      ring
    rw [this]
    exact roundEven_tie_even hev
  · rw [abs_of_nonneg (mul_nonneg hm0' hp.le)]
    exact hfin

/-! ## Segment start on the machine -/

/-- C1, amended: for a binary64 segment length `L ≥ 11` and a file duration `D` with
`L ≤ D < 2 ^ 53`, for every conversion rule and every raw value of the generator,
`getSegmentStart` returns a finite start `s` which is the binary64 product of `L` and a
natural number `k`, with `0 ≤ s ≤ D - L`, so that the segment `[s, s + L]` lies inside the
file; when `L` is integer-valued the product is exact, `s = k * L`. -/
theorem getSegmentStart64_within_file (conv : F64 → Int)
    (ParseFloat : String → Except String F64) (f : File) (D L : ℚ) (raw : Nat)
    (hD : ParseFloat f.Format.Duration = Except.ok (F64.fin D))
    (hL64 : IsBinary64 L) (hL : 11 ≤ L) (hDL : L ≤ D) (hbig : D < 2 ^ 53) :
    ∃ (k : Nat) (s : ℚ),
      getSegmentStart64 conv ParseFloat (F64.fin L) f raw = Res.ok (F64.fin s) ∧
      F64.mul (F64.fin L) (F64.ofInt k) = F64.fin s ∧
      0 ≤ s ∧ s ≤ D - L ∧ s + L ≤ D ∧ ((∃ n : Nat, L = (n : ℚ)) → s = (k : ℚ) * L) := by
  have hL0 : 0 < L := by linarith
  obtain ⟨m, hm, hm1, _, hmq⟩ := slotCount64 conv D L hL64 hL hDL hbig
  have hqL : ((maxSlots D L : Int) : ℚ) * L ≤ D := floor_div_mul_le hL0
  have hq53 : maxSlots D L < 2 ^ 53 := by
    have h1 : ((maxSlots D L : Int) : ℚ) < ((2 ^ 53 : Int) : ℚ) := by
      have : (0 : ℚ) ≤ ((maxSlots D L : Int) : ℚ) := by
        exact_mod_cast le_trans (by norm_num) (maxSlots_pos hL0 hDL)
      push_cast
      nlinarith
    exact_mod_cast h1
  obtain ⟨k, hk, hlo, hhi, _⟩ :=
    segmentStartOf64_of_count conv (F64.fin D) (F64.fin L) L rfl raw m hm hm1 (by omega)
  have hk0 : 0 ≤ k := by
    have : (0 : Int) ≤ (if m > 1 then 1 else 0) := by split_ifs <;> omega
    omega
  have hk1 : k + 1 ≤ maxSlots D L := by
    have : (if m > 2 then m - 1 else m) ≤ m := by split_ifs <;> omega
    omega
  have hk2 : 2 ≤ k → k + 2 ≤ maxSlots D L := by
    intro h2
    split_ifs at hhi <;> omega
  obtain ⟨s, hs, hs0, hsD⟩ :=
    product_within D L k (maxSlots D L) hL64 hL hbig hqL hk0 hk1 hk2
  have hcast : ((k.toNat : Nat) : ℚ) = (k : ℚ) := by
    have : ((k.toNat : Int) : ℚ) = (k : ℚ) := by rw [Int.toNat_of_nonneg hk0]
    exact_mod_cast this
  have hk53 : k < 2 ^ 53 := by omega
  refine ⟨k.toNat, s, ?_, ?_, hs0, by linarith, hsD, ?_⟩
  · simp only [getSegmentStart64, hD, hk, hs]
  · have : F64.ofInt ((k.toNat : Nat) : Int) = F64.fin (k : ℚ) := by
      rw [Int.toNat_of_nonneg hk0]
      exact round64_intCast hk0 hk53
    simp only [this, F64.mul, hs]
  · rintro ⟨n, hn⟩
    have hprod : L * (k : ℚ) = (((n : Int) * k : Int) : ℚ) := by
      rw [hn]
      push_cast
      ring
    have hp0 : 0 ≤ (n : Int) * k := by positivity
    have hp53 : (n : Int) * k < 2 ^ 53 := by
      have : ((((n : Int) * k : Int) : Int) : ℚ) < ((2 ^ 53 : Int) : ℚ) := by
        rw [← hprod]
        push_cast
        have hk1' : (k : ℚ) + 1 ≤ ((maxSlots D L : Int) : ℚ) := by exact_mod_cast hk1
        nlinarith
      exact_mod_cast this
    have hexact := round64_intCast hp0 hp53
    rw [← hprod, hs] at hexact
    injection hexact with hexact
    rw [hcast, hexact]
    ring

/-! ## The machine at `D = 1e30`, `L = 11` and at `L = NaN` -/

theorem maxSlots_1e30 : maxSlots f64_1e30 11 = 90909090909090910898602258059 := by
  unfold maxSlots
  rw [Int.floor_eq_iff]
  norm_num [f64_1e30]

theorem round64_difference_1e30 :
    round64 (11 * ((90909090909090910898602258059 : Int) : ℚ)) = F64.fin f64_1e30 := by
  have h := round64_of_unit (x := 11 * ((90909090909090910898602258059 : Int) : ℚ))
    (u := 2 ^ 47) (e := 99) (m := 7105427357601002) (by norm_num) (by norm_num)
    (by norm_num) (by norm_num) (by norm_num) (by norm_num) (by norm_num) (by norm_num)
    (by norm_num)
  rw [h]
  norm_num [f64_1e30]

theorem round64_quotient_1e30 :
    round64 (f64_1e30 / 11) = F64.fin ((90909090909090915696471179264 : Int) : ℚ) := by
  have h := round64_of_unit (x := f64_1e30 / 11)
    (u := 2 ^ 44) (e := 96) (m := 5167583532800729) (by norm_num [f64_1e30]) (by norm_num)
    (by norm_num) (by norm_num [f64_1e30]) (by norm_num [f64_1e30])
    (by norm_num [f64_1e30]) (by norm_num [f64_1e30]) (by norm_num) (by norm_num)
  rw [h]
  norm_num

theorem toInt64_amd64_nan : F64.toInt64 amd64Conv F64.nan = -9223372036854775808 := by
  simp only [F64.toInt64, amd64Conv]
  exact wrap64_of_range (by norm_num) (by norm_num)

theorem slotRange64_of_min (conv : F64 → Int) (D L : F64)
    (h : F64.toInt64 conv (F64.div (F64.sub D (F64.mod D L)) L) = -9223372036854775808) :
    slotRange64 conv D L = (0, -9223372036854775808) := by
  simp only [slotRange64, h]
  norm_num

theorem segmentStartOf64_of_min (conv : F64 → Int) (D L : F64) (raw : Nat)
    (h : slotRange64 conv D L = (0, -9223372036854775808)) :
    segmentStartOf64 conv D L raw = Res.panic "invalid argument to Intn" := by
  have hw : wrap64 (-9223372036854775808 - 0) = -9223372036854775808 := by
    rw [sub_zero]
    exact wrap64_of_range (by norm_num) (by norm_num)
  unfold segmentStartOf64
  rw [h]
  dsimp only
  rw [hw, Intn_of_nonpos raw (by norm_num)]

/-- Line 118 at `D = 1e30`, `L = 11` on amd64: the quotient `9.090909090909092e+28` is
outside the `int` range and the conversion gives `-2 ^ 63`. -/
theorem slotCount_1e30 :
    F64.toInt64 amd64Conv (F64.div (F64.sub (F64.fin f64_1e30)
      (F64.mod (F64.fin f64_1e30) (F64.fin 11))) (F64.fin 11)) = -9223372036854775808 := by
  have ha : round64 (11 * ((maxSlots f64_1e30 11 : Int) : ℚ)) = F64.fin f64_1e30 := by
    rw [maxSlots_1e30]
    exact round64_difference_1e30
  rw [quotient_fin f64_1e30 11 (by norm_num) (by norm_num [f64_1e30]) _ ha,
    round64_quotient_1e30]
  simp only [F64.toInt64, toInt_intCast]
  rw [if_neg (by norm_num)]
  simp only [amd64Conv]
  exact wrap64_of_range (by norm_num) (by norm_num)

/-- At `D = 1e30`, `L = 11` on amd64 the draw of `getSegmentStart` panics. -/
theorem getSegmentStart64_1e30 (f : File) (raw : Nat) :
    getSegmentStart64 amd64Conv (parseAs (F64.fin f64_1e30)) (F64.fin 11) f raw =
      Res.panic "invalid argument to Intn" := by
  simp only [getSegmentStart64, parseAs]
  exact segmentStartOf64_of_min _ _ _ raw
    (slotRange64_of_min amd64Conv (F64.fin f64_1e30) (F64.fin 11) slotCount_1e30)

/-! ## The machine at `D = 145`, `L = 11.1` -/

theorem isBinary64_11_1 : IsBinary64 f64_11_1 := by
  have h := round64_of_unit (x := f64_11_1) (u := 1 / 2 ^ 49) (e := 3)
    (m := 6248744482976563) (by norm_num [f64_11_1]) (by norm_num) (by norm_num)
    (by norm_num [f64_11_1]) (by norm_num [f64_11_1]) (by norm_num [f64_11_1])
    (by norm_num [f64_11_1]) (by norm_num) (by norm_num)
  unfold IsBinary64
  rw [h]
  norm_num [f64_11_1]

theorem maxSlots_145 : maxSlots 145 f64_11_1 = 13 := by
  unfold maxSlots
  rw [Int.floor_eq_iff]
  norm_num [f64_11_1]

theorem round64_11_1_mul_13 :
    round64 (f64_11_1 * ((13 : Int) : ℚ)) = F64.fin (5077104892418457 / 35184372088832) := by
  have h := round64_of_unit (x := f64_11_1 * ((13 : Int) : ℚ)) (u := 1 / 2 ^ 45) (e := 7)
    (m := 5077104892418457) (by norm_num [f64_11_1]) (by norm_num) (by norm_num)
    (by norm_num [f64_11_1]) (by norm_num [f64_11_1]) (by norm_num [f64_11_1])
    (by norm_num [f64_11_1]) (by norm_num) (by norm_num)
  rw [h]
  norm_num

theorem round64_quotient_145 :
    round64 ((5077104892418457 / 35184372088832 : ℚ) / f64_11_1) =
      F64.fin (7318349394477055 / 562949953421312) := by
  have h := round64_of_unit (x := (5077104892418457 / 35184372088832 : ℚ) / f64_11_1)
    (u := 1 / 2 ^ 49) (e := 3)
    (m := 7318349394477055) (by norm_num [f64_11_1]) (by norm_num) (by norm_num)
    (by norm_num [f64_11_1]) (by norm_num [f64_11_1]) (by norm_num [f64_11_1])
    (by norm_num [f64_11_1]) (by norm_num) (by norm_num)
  rw [h]
  norm_num

theorem round64_11_1_mul_9 :
    round64 (f64_11_1 * ((9 : Int) : ℚ)) = F64.fin (7029837543348633 / 70368744177664) := by
  have h := round64_of_unit (x := f64_11_1 * ((9 : Int) : ℚ)) (u := 1 / 2 ^ 46) (e := 6)
    (m := 7029837543348633) (by norm_num [f64_11_1]) (by norm_num) (by norm_num)
    (by norm_num [f64_11_1]) (by norm_num [f64_11_1]) (by norm_num [f64_11_1])
    (by norm_num [f64_11_1]) (by norm_num) (by norm_num)
  rw [h]
  norm_num

/-- Line 118 at `D = 145`, `L = 11.1`: the quotient is rounded to `12.999999999999998` and
the slot count is 12, where `floor (D / L) = 13`. -/
theorem slotCount_145 (conv : F64 → Int) :
    F64.toInt64 conv (F64.div (F64.sub (F64.fin 145)
      (F64.mod (F64.fin 145) (F64.fin f64_11_1))) (F64.fin f64_11_1)) = 12 := by
  have ha : round64 (f64_11_1 * ((maxSlots 145 f64_11_1 : Int) : ℚ)) =
      F64.fin (5077104892418457 / 35184372088832) := by
    rw [maxSlots_145]
    exact round64_11_1_mul_13
  rw [quotient_fin 145 f64_11_1 (by norm_num [f64_11_1]) (by norm_num) _ ha,
    round64_quotient_145]
  exact toInt64_fin conv (by norm_num) (by norm_num) (by norm_num) (by norm_num)

/-- C1 fails as stated: at `D = 145` and the binary64 segment length `11.1`, with the raw
value 8, `getSegmentStart` draws slot 9 of `[1, 11)` and returns the rounded product
`99.89999999999999`, which lies strictly between `8 * L` and `9 * L` and so is `k * L` for no
integer `k`.  And at `D = 1e30`, `L = 11` on amd64 the call returns no start: the slot count
overflows and `rand.Intn` panics. -/
theorem getSegmentStart64_not_multiple :
    IsBinary64 f64_11_1 ∧ (11 : ℚ) ≤ f64_11_1 ∧ f64_11_1 ≤ 145 ∧
    getSegmentStart64 amd64Conv (parseAs (F64.fin 145)) (F64.fin f64_11_1)
      (fileOf "clip.mov" "145" []) 8 = Res.ok (F64.fin (7029837543348633 / 70368744177664)) ∧
    8 * f64_11_1 < 7029837543348633 / 70368744177664 ∧
    (7029837543348633 / 70368744177664 : ℚ) < 9 * f64_11_1 ∧
    getSegmentStart64 amd64Conv (parseAs (F64.fin f64_1e30)) (F64.fin 11)
      (fileOf "clip.mov" "1e30" []) 0 = Res.panic "invalid argument to Intn" := by
  refine ⟨isBinary64_11_1, by norm_num [f64_11_1], by norm_num [f64_11_1], ?_,
    by norm_num [f64_11_1], by norm_num [f64_11_1], getSegmentStart64_1e30 _ 0⟩
  obtain ⟨k, hk, _, _, hkeq⟩ := segmentStartOf64_of_count amd64Conv (F64.fin 145)
    (F64.fin f64_11_1) f64_11_1 rfl 8 12 (slotCount_145 amd64Conv) (by norm_num) (by norm_num)
  have hk9 : k = 9 := by
    rw [hkeq]
    decide
  rw [hk9, round64_11_1_mul_9] at hk
  simp only [getSegmentStart64, parseAs, hk]

/-- C1 amended, at an instance: duration 145, the binary64 segment length `11.1`, the amd64
conversion and the raw value 8. -/
theorem getSegmentStart64_within_file_witness :
    ∃ (k : Nat) (s : ℚ),
      getSegmentStart64 amd64Conv (parseAs (F64.fin 145)) (F64.fin f64_11_1)
        (fileOf "clip.mov" "145" []) 8 = Res.ok (F64.fin s) ∧
      F64.mul (F64.fin f64_11_1) (F64.ofInt k) = F64.fin s ∧
      0 ≤ s ∧ s ≤ 145 - f64_11_1 ∧ s + f64_11_1 ≤ 145 ∧
      ((∃ n : Nat, f64_11_1 = (n : ℚ)) → s = (k : ℚ) * f64_11_1) :=
  getSegmentStart64_within_file amd64Conv (parseAs (F64.fin 145))
    (fileOf "clip.mov" "145" []) 145 f64_11_1 8 rfl isBinary64_11_1
    (by norm_num [f64_11_1]) (by norm_num [f64_11_1]) (by norm_num)

/-- Every slot of a range `[lo, hi)` is drawn for some raw generator value. -/
theorem draw_surj (lo hi k : Int) (hlo : lo ≤ k) (hhi : k < hi) :
    ∃ raw : Nat, (raw : Int) % (hi - lo) + lo = k := by
  refine ⟨(k - lo).toNat, ?_⟩
  have h0 : 0 ≤ k - lo := by omega
  rw [Int.toNat_of_nonneg h0, Int.emod_eq_of_lt h0 (by omega)]
  omega

/-- The starts on the machine, for a binary64 `L ≥ 11` and `L ≤ D < 2 ^ 53`: with `m` the
slot count of line 118, which is `floor (D / L)` or one less, the starts returned over all
raw values are exactly the rounded products of `L` and the slots of the range computed from
`m`. -/
theorem getSegmentStart64_results (conv : F64 → Int)
    (ParseFloat : String → Except String F64) (f : File) (D L : ℚ)
    (hD : ParseFloat f.Format.Duration = Except.ok (F64.fin D))
    (hL64 : IsBinary64 L) (hL : 11 ≤ L) (hDL : L ≤ D) (hbig : D < 2 ^ 53) :
    ∃ m : Int, 1 ≤ m ∧ maxSlots D L - 1 ≤ m ∧ m ≤ maxSlots D L ∧
      ∀ s : F64, (∃ raw : Nat, getSegmentStart64 conv ParseFloat (F64.fin L) f raw = Res.ok s) ↔
        ∃ k : Int, (if m > 1 then 1 else 0) ≤ k ∧ k < (if m > 2 then m - 1 else m) ∧
          s = round64 (L * (k : ℚ)) := by
  have hL0 : 0 < L := by linarith
  obtain ⟨m, hm, hm1, hmq1, hmq⟩ := slotCount64 conv D L hL64 hL hDL hbig
  have hqL : ((maxSlots D L : Int) : ℚ) * L ≤ D := floor_div_mul_le hL0
  have hm53 : m < 2 ^ 53 := by
    have h1 : ((maxSlots D L : Int) : ℚ) < ((2 ^ 53 : Int) : ℚ) := by
      have : (0 : ℚ) ≤ ((maxSlots D L : Int) : ℚ) := by
        exact_mod_cast le_trans (by norm_num) (maxSlots_pos hL0 hDL)
      push_cast
      nlinarith
    have : maxSlots D L < 2 ^ 53 := by exact_mod_cast h1
    omega
  refine ⟨m, hm1, hmq1, hmq, fun s => ⟨?_, ?_⟩⟩
  · rintro ⟨raw, hraw⟩
    obtain ⟨k, hk, hlo, hhi, _⟩ :=
      segmentStartOf64_of_count conv (F64.fin D) (F64.fin L) L rfl raw m hm hm1 hm53
    simp only [getSegmentStart64, hD, hk] at hraw
    injection hraw with hraw
    exact ⟨k, hlo, hhi, hraw.symm⟩
  · rintro ⟨k, hlo, hhi, hs⟩
    obtain ⟨raw, hraw⟩ := draw_surj _ _ k hlo hhi
    obtain ⟨k', hk, _, _, hkeq⟩ :=
      segmentStartOf64_of_count conv (F64.fin D) (F64.fin L) L rfl raw m hm hm1 hm53
    refine ⟨raw, ?_⟩
    rw [hraw] at hkeq
    simp only [getSegmentStart64, hD, hk, hkeq, hs]

/-- The double of a binary64 value `x ≥ 1` below `2 ^ 1022` is a binary64 value. -/
theorem isBinary64_double {x : ℚ} (h : IsBinary64 x) (hx : 1 ≤ x) (hbig : x < 2 ^ 1022) :
    IsBinary64 (2 * x) := by
  obtain ⟨h0, hlo, hhi⟩ := log2_bracket hx
  have hx0 : x ≠ 0 := by linarith
  have hval : ((roundEven (x / (2 : ℚ) ^ (Int.log 2 x - 52)) : Int) : ℚ) *
      (2 : ℚ) ^ (Int.log 2 x - 52) = x := by
    unfold IsBinary64 round64 at h
    rw [if_neg hx0, ulpExp_of_one_le hx] at h
    split_ifs at h
    injection h
  have hstep : (2 : ℚ) ^ (Int.log 2 x + 1 - 52) = 2 * (2 : ℚ) ^ (Int.log 2 x - 52) := by
    have : Int.log 2 x + 1 - 52 = (Int.log 2 x - 52) + 1 := by ring
    rw [this, two_zpow_succ]
    ring
  have hp := two_zpow_pos (Int.log 2 x - 52)
  have hscaled : 2 * x / (2 : ℚ) ^ (Int.log 2 x + 1 - 52) =
      x / (2 : ℚ) ^ (Int.log 2 x - 52) := by
    rw [hstep]
    field_simp
    ring
  have hdouble : ((roundEven (x / (2 : ℚ) ^ (Int.log 2 x - 52)) : Int) : ℚ) *
      (2 * (2 : ℚ) ^ (Int.log 2 x - 52)) = 2 * x := by
    calc _ = 2 * (((roundEven (x / (2 : ℚ) ^ (Int.log 2 x - 52)) : Int) : ℚ) *
          (2 : ℚ) ^ (Int.log 2 x - 52)) := by ring
      _ = 2 * x := by rw [hval]
  have hr := round64_eq_of (x := 2 * x) (e := Int.log 2 x + 1)
    (m := roundEven (x / (2 : ℚ) ^ (Int.log 2 x - 52))) (by linarith) (by omega)
    (by
      rw [abs_of_pos (by linarith), two_zpow_succ]
      linarith)
    (by
      rw [abs_of_pos (by linarith), two_zpow_succ, two_zpow_succ]
      rw [two_zpow_succ] at hhi
      linarith)
    (by rw [hscaled])
    (by
      rw [hstep, hdouble, abs_of_pos (by linarith)]
      have : (2 : ℚ) ^ 1024 = 4 * 2 ^ 1022 := by norm_num
      linarith)
  unfold IsBinary64
  rw [hr, hstep, hdouble]

/-- With exactly two slots line 118 is exact: the slot count is 2. -/
theorem slotCount64_two (conv : F64 → Int) (D L : ℚ) (hL64 : IsBinary64 L) (hL : 11 ≤ L)
    (hbig : D < 2 ^ 53) (hq : maxSlots D L = 2) :
    F64.toInt64 conv
      (F64.div (F64.sub (F64.fin D) (F64.mod (F64.fin D) (F64.fin L))) (F64.fin L)) = 2 := by
  have hL0 : 0 < L := by linarith
  have hqL : ((maxSlots D L : Int) : ℚ) * L ≤ D := floor_div_mul_le hL0
  rw [hq] at hqL
  have hD0 : 0 ≤ D := by
    push_cast at hqL
    linarith
  have hLbig : L < 2 ^ 1022 := by
    have : (2 : ℚ) ^ 53 < 2 ^ 1022 := by norm_num
    push_cast at hqL
    linarith
  have ha : round64 (L * ((maxSlots D L : Int) : ℚ)) = F64.fin (2 * L) := by
    rw [hq]
    have := isBinary64_double hL64 (by linarith) hLbig
    unfold IsBinary64 at this
    rw [← this]
    congr 1
    push_cast
    ring
  rw [quotient_fin D L hL0 hD0 _ ha]
  have h2 : 2 * L / L = ((2 : Nat) : ℚ) := by
    field_simp
  rw [h2, round64_natCast 2 (by norm_num)]
  exact toInt64_fin conv (by norm_num) (by norm_num) (by norm_num) (by norm_num)

/-- The lead-in and trail-out on the machine: for a binary64 `L ≥ 11` and `L ≤ D < 2 ^ 53`
the start `s` returned is different from `0` exactly when `D ≥ 2 * L`, and `s + L` is
different from `D` exactly when `D` is neither `L` nor `2 * L`. -/
theorem getSegmentStart64_lead_in_trail_out (conv : F64 → Int)
    (ParseFloat : String → Except String F64) (f : File) (D L : ℚ) (raw : Nat)
    (hD : ParseFloat f.Format.Duration = Except.ok (F64.fin D))
    (hL64 : IsBinary64 L) (hL : 11 ≤ L) (hDL : L ≤ D) (hbig : D < 2 ^ 53) :
    ∃ s : ℚ, getSegmentStart64 conv ParseFloat (F64.fin L) f raw = Res.ok (F64.fin s) ∧
      (s ≠ 0 ↔ 2 * L ≤ D) ∧ (s + L ≠ D ↔ D ≠ L ∧ D ≠ 2 * L) := by
  have hL0 : 0 < L := by linarith
  obtain ⟨m, hm, hm1, hmq1, hmq⟩ := slotCount64 conv D L hL64 hL hDL hbig
  have hq1 := maxSlots_pos hL0 hDL
  have hqL : ((maxSlots D L : Int) : ℚ) * L ≤ D := floor_div_mul_le hL0
  have hqL' : D < (((maxSlots D L : Int) : ℚ) + 1) * L := lt_floor_div_succ_mul hL0
  have hq53 : maxSlots D L < 2 ^ 53 := by
    have h1 : ((maxSlots D L : Int) : ℚ) < ((2 ^ 53 : Int) : ℚ) := by
      have : (1 : ℚ) ≤ ((maxSlots D L : Int) : ℚ) := by exact_mod_cast hq1
      push_cast
      nlinarith
    exact_mod_cast h1
  have hm2 : maxSlots D L = 2 → m = 2 := by
    intro h2
    rw [← hm]
    exact slotCount64_two conv D L hL64 hL hbig h2
  obtain ⟨k, hk, hlo, hhi, _⟩ :=
    segmentStartOf64_of_count conv (F64.fin D) (F64.fin L) L rfl raw m hm hm1 (by omega)
  have hres : ∀ s : ℚ, round64 (L * (k : ℚ)) = F64.fin s →
      getSegmentStart64 conv ParseFloat (F64.fin L) f raw = Res.ok (F64.fin s) := by
    intro s hs
    simp only [getSegmentStart64, hD, hk, hs]
  generalize maxSlots D L = q at *
  rcases lt_trichotomy q 2 with hlt | heq | hgt
  · -- one slot
    have hq : q = 1 := by omega
    subst hq
    have hm' : m = 1 := by omega
    subst hm'
    have hk0 : k = 0 := by
      simp at hlo hhi
      omega
    subst hk0
    norm_num at hqL hqL'
    refine ⟨0, hres 0 (by simp [round64]), ?_, ?_⟩
    · constructor
      · intro h
        exact absurd rfl h
      · intro h
        linarith
    · constructor
      · intro h
        exact ⟨fun e => h (by rw [e]; ring), fun e => by linarith⟩
      · rintro ⟨h1, _⟩ e
        exact h1 (by linarith)
  · -- two slots
    subst heq
    have hm' : m = 2 := hm2 rfl
    subst hm'
    have hk1 : k = 1 := by
      simp at hlo hhi
      omega
    subst hk1
    norm_num at hqL hqL'
    refine ⟨L, hres L (by simpa using hL64), ?_, ?_⟩
    · constructor
      · intro _
        exact hqL
      · intro _
        exact ne_of_gt hL0
    · constructor
      · intro h
        exact ⟨fun e => by linarith, fun e => h (by rw [e]; ring)⟩
      · rintro ⟨_, h2⟩ e
        exact h2 (by linarith)
  · -- three slots or more
    have hq3 : (3 : ℚ) ≤ (q : ℚ) := by exact_mod_cast hgt
    have hm2' : 2 ≤ m := by omega
    have hk1 : 1 ≤ k := by
      have : (if m > 1 then (1 : Int) else 0) = 1 := by
        rw [if_pos (by omega)]
      omega
    rcases eq_or_lt_of_le hk1 with hk | hk2
    · subst hk
      refine ⟨L, hres L (by simpa using hL64), ?_, ?_⟩
      · constructor
        · intro _
          nlinarith
        · intro _
          exact ne_of_gt hL0
      · constructor
        · intro _
          exact ⟨fun e => by nlinarith, fun e => by nlinarith⟩
        · intro _ e
          nlinarith
    · have hkq : k + 2 ≤ q := by
        split_ifs at hhi <;> omega
      have hkq' : (k : ℚ) + 2 ≤ (q : ℚ) := by exact_mod_cast hkq
      have hk2' : (2 : ℚ) ≤ (k : ℚ) := by exact_mod_cast hk2
      have hx1 : (1 : ℚ) ≤ L * (k : ℚ) := by nlinarith
      have hxD : L * (k : ℚ) + 2 * L ≤ D := by nlinarith
      have hxbig : L * (k : ℚ) < 2 ^ 1023 := by
        have : (2 : ℚ) ^ 53 < 2 ^ 1023 := by norm_num
        linarith
      obtain ⟨s, hs, herr⟩ := round64_error hx1 hxbig
      rw [abs_le] at herr
      have herr1 : L * (k : ℚ) / 2 ^ 53 < 1 := by
        rw [div_lt_one (by norm_num)]
        linarith
      have hspos : 0 < s := by linarith [herr.1]
      have hslt : s + L < D := by linarith [herr.2]
      refine ⟨s, hres s hs, ?_, ?_⟩
      · constructor
        · intro _
          nlinarith
        · intro _
          exact ne_of_gt hspos
      · constructor
        · intro _
          exact ⟨fun e => by nlinarith, fun e => by nlinarith⟩
        · intro _
          exact ne_of_lt hslt

/-! ## Integer-valued segment durations: nothing is rounded -/

/-- For an integer-valued `L = n ≥ 11` and `n ≤ D < 2 ^ 53` line 118 gives
`floor (D / L)`. -/
theorem slotCount64_int (conv : F64 → Int) (D : ℚ) (n : Nat) (hn : (11 : ℚ) ≤ (n : ℚ))
    (hDL : (n : ℚ) ≤ D) (hbig : D < 2 ^ 53) :
    F64.toInt64 conv (F64.div (F64.sub (F64.fin D)
      (F64.mod (F64.fin D) (F64.fin (n : ℚ)))) (F64.fin (n : ℚ))) = maxSlots D (n : ℚ) := by
  have hL0 : (0 : ℚ) < (n : ℚ) := by linarith
  have hD0 : 0 ≤ D := by linarith
  have hq1 : 1 ≤ maxSlots D (n : ℚ) := maxSlots_pos hL0 hDL
  have hq1' : (1 : ℚ) ≤ ((maxSlots D (n : ℚ) : Int) : ℚ) := by exact_mod_cast hq1
  have hqL : ((maxSlots D (n : ℚ) : Int) : ℚ) * (n : ℚ) ≤ D := floor_div_mul_le hL0
  have hprod : (n : ℚ) * ((maxSlots D (n : ℚ) : Int) : ℚ) =
      ((((n : Int) * maxSlots D (n : ℚ) : Int) : Int) : ℚ) := by
    push_cast
    ring
  have hp53 : (n : Int) * maxSlots D (n : ℚ) < 2 ^ 53 := by
    have : ((((n : Int) * maxSlots D (n : ℚ) : Int) : Int) : ℚ) < ((2 ^ 53 : Int) : ℚ) := by
      rw [← hprod]
      push_cast
      linarith
    exact_mod_cast this
  have hq53 : maxSlots D (n : ℚ) < 2 ^ 53 := by
    have : ((maxSlots D (n : ℚ) : Int) : ℚ) < ((2 ^ 53 : Int) : ℚ) := by
      push_cast
      nlinarith
    exact_mod_cast this
  have ha : round64 ((n : ℚ) * ((maxSlots D (n : ℚ) : Int) : ℚ)) =
      F64.fin ((n : ℚ) * ((maxSlots D (n : ℚ) : Int) : ℚ)) := by
    rw [hprod]
    exact round64_intCast (by positivity) hp53
  rw [quotient_fin D (n : ℚ) hL0 hD0 _ ha, mul_div_cancel_left₀ _ (ne_of_gt hL0),
    round64_intCast (by omega) hq53]
  exact toInt64_fin conv (by linarith) (le_refl _) (by linarith) (by
    have : (2 : Int) ^ 53 < 2 ^ 63 := by norm_num
    omega)

/-- For an integer-valued `L = n ≥ 11` and `n ≤ D < 2 ^ 53` the machine returns the exact
product `n * k` for the slot `k = raw % (hi - lo) + lo` of the specification's range. -/
theorem getSegmentStart64_int_eq (conv : F64 → Int) (ParseFloat : String → Except String F64)
    (f : File) (D : ℚ) (n : Nat) (raw : Nat)
    (hD : ParseFloat f.Format.Duration = Except.ok (F64.fin D))
    (hn : (11 : ℚ) ≤ (n : ℚ)) (hDL : (n : ℚ) ≤ D) (hbig : D < 2 ^ 53) :
    getSegmentStart64 conv ParseFloat (F64.fin (n : ℚ)) f raw =
      Res.ok (F64.fin ((((raw : Int) % (slotHi D (n : ℚ) - slotLo D (n : ℚ)) +
        slotLo D (n : ℚ) : Int) : ℚ) * (n : ℚ))) := by
  have hL0 : (0 : ℚ) < (n : ℚ) := by linarith
  have hq1 : 1 ≤ maxSlots D (n : ℚ) := maxSlots_pos hL0 hDL
  have hqL : ((maxSlots D (n : ℚ) : Int) : ℚ) * (n : ℚ) ≤ D := floor_div_mul_le hL0
  have hq53 : maxSlots D (n : ℚ) < 2 ^ 53 := by
    have h1' : (1 : ℚ) ≤ ((maxSlots D (n : ℚ) : Int) : ℚ) := by exact_mod_cast hq1
    have : ((maxSlots D (n : ℚ) : Int) : ℚ) < ((2 ^ 53 : Int) : ℚ) := by
      push_cast
      nlinarith
    exact_mod_cast this
  obtain ⟨k, hk, hlo, hhi, hkeq⟩ := segmentStartOf64_of_count conv (F64.fin D)
    (F64.fin (n : ℚ)) (n : ℚ) rfl raw (maxSlots D (n : ℚ))
    (slotCount64_int conv D n hn hDL hbig) hq1 hq53
  have hkeq' : k = (raw : Int) % (slotHi D (n : ℚ) - slotLo D (n : ℚ)) + slotLo D (n : ℚ) :=
    hkeq
  have hk0 : 0 ≤ k := by
    have : (0 : Int) ≤ (if maxSlots D (n : ℚ) > 1 then 1 else 0) := by split_ifs <;> omega
    omega
  have hkq : k + 1 ≤ maxSlots D (n : ℚ) := by
    have : (if maxSlots D (n : ℚ) > 2 then maxSlots D (n : ℚ) - 1 else maxSlots D (n : ℚ)) ≤
        maxSlots D (n : ℚ) := by split_ifs <;> omega
    omega
  have hprod : (n : ℚ) * (k : ℚ) = ((((n : Int) * k : Int) : Int) : ℚ) := by
    push_cast
    ring
  have hp53 : (n : Int) * k < 2 ^ 53 := by
    have hkq' : (k : ℚ) + 1 ≤ ((maxSlots D (n : ℚ) : Int) : ℚ) := by exact_mod_cast hkq
    have : ((((n : Int) * k : Int) : Int) : ℚ) < ((2 ^ 53 : Int) : ℚ) := by
      rw [← hprod]
      push_cast
      nlinarith
    exact_mod_cast this
  have hexact : round64 ((n : ℚ) * (k : ℚ)) = F64.fin ((k : ℚ) * (n : ℚ)) := by
    rw [hprod, round64_intCast (by positivity) hp53]
    push_cast
    rw [mul_comm]
  simp only [getSegmentStart64, hD, hk, hexact]
  rw [hkeq']

/-- C3, amended: for an integer-valued segment length `L = n ≥ 11` and `n ≤ D < 2 ^ 53`
(where line 118 is exact), for every conversion rule, the call never panics and the starts
`getSegmentStart` returns over all raw values are exactly the `k * L` with `lo ≤ k < hi`,
where `lo` and `hi` are the range ends of the specification for `maxSlots = floor (D / L)`.
For `D = 300`, `L = 120` the result is always `120`; for `D = 600`, `L = 120` the results
are exactly `120`, `240` and `360`. -/
theorem getSegmentStart64_range (conv : F64 → Int) (ParseFloat : String → Except String F64)
    (f : File) (D : ℚ) (n : Nat)
    (hD : ParseFloat f.Format.Duration = Except.ok (F64.fin D))
    (hn : (11 : ℚ) ≤ (n : ℚ)) (hDL : (n : ℚ) ≤ D) (hbig : D < 2 ^ 53) :
    (∀ raw : Nat, ∃ s : ℚ,
      getSegmentStart64 conv ParseFloat (F64.fin (n : ℚ)) f raw = Res.ok (F64.fin s)) ∧
    (∀ s : ℚ,
      (∃ raw : Nat,
        getSegmentStart64 conv ParseFloat (F64.fin (n : ℚ)) f raw = Res.ok (F64.fin s)) ↔
      ∃ k : Int, slotLo D (n : ℚ) ≤ k ∧ k < slotHi D (n : ℚ) ∧ s = (k : ℚ) * (n : ℚ)) ∧
    (D = 300 → n = 120 → ∀ raw : Nat,
      getSegmentStart64 conv ParseFloat (F64.fin (n : ℚ)) f raw = Res.ok (F64.fin 120)) ∧
    (D = 600 → n = 120 → ∀ s : ℚ,
      (∃ raw : Nat,
        getSegmentStart64 conv ParseFloat (F64.fin (n : ℚ)) f raw = Res.ok (F64.fin s)) ↔
      s = 120 ∨ s = 240 ∨ s = 360) := by
  have hL0 : (0 : ℚ) < (n : ℚ) := by linarith
  have heq := fun raw => getSegmentStart64_int_eq conv ParseFloat f D n raw hD hn hDL hbig
  have key : ∀ s : ℚ,
      (∃ raw : Nat,
        getSegmentStart64 conv ParseFloat (F64.fin (n : ℚ)) f raw = Res.ok (F64.fin s)) ↔
      ∃ k : Int, slotLo D (n : ℚ) ≤ k ∧ k < slotHi D (n : ℚ) ∧ s = (k : ℚ) * (n : ℚ) := by
    intro s
    constructor
    · rintro ⟨raw, hraw⟩
      rw [heq raw] at hraw
      injection hraw with hraw
      injection hraw with hs
      obtain ⟨hlo, hhi⟩ := slot_mem D (n : ℚ) hL0 hDL raw
      exact ⟨_, hlo, hhi, hs.symm⟩
    · rintro ⟨k, hlo, hhi, hs⟩
      obtain ⟨raw, hraw⟩ := slot_surj D (n : ℚ) k hlo hhi
      exact ⟨raw, by rw [heq raw, hraw, hs]⟩
  refine ⟨fun raw => ⟨_, heq raw⟩, key, ?_, ?_⟩
  · intro h300 h120 raw
    obtain ⟨hlo, hhi⟩ := slot_mem D (n : ℚ) hL0 hDL raw
    rw [heq raw]
    subst h300 h120
    have hq : maxSlots 300 ((120 : Nat) : ℚ) = 2 := by norm_num [maxSlots]
    simp only [slotLo, slotHi, hq] at hlo hhi ⊢
    have hk1 : (raw : Int) % ((if (2 : Int) > 2 then 2 - 1 else 2) -
        (if (2 : Int) > 1 then 1 else 0)) + (if (2 : Int) > 1 then 1 else 0) = 1 := by
      simp
    rw [hk1]
    norm_num
  · intro h600 h120 s
    rw [key s]
    subst h600 h120
    have hq : maxSlots 600 ((120 : Nat) : ℚ) = 5 := by norm_num [maxSlots]
    simp only [slotLo, slotHi, hq]
    constructor
    · rintro ⟨k, hlo, hhi, hs⟩
      simp at hlo hhi
      have hk : k = 1 ∨ k = 2 ∨ k = 3 := by omega
      rcases hk with rfl | rfl | rfl
      · left
        rw [hs]
        norm_num
      · right
        left
        rw [hs]
        norm_num
      · right
        right
        rw [hs]
        norm_num
    · rintro (rfl | rfl | rfl)
      · exact ⟨1, by simp, by simp, by norm_num⟩
      · exact ⟨2, by simp, by simp, by norm_num⟩
      · exact ⟨3, by simp, by simp, by norm_num⟩

/-- C3 amended, at instances: a file of duration 300 with segment length 120 starts at 120
for the raw value 7, and a file of duration 600 starts at 360 for some raw value. -/
theorem getSegmentStart64_range_witness :
    getSegmentStart64 amd64Conv (parseAs (F64.fin 300)) (F64.fin ((120 : Nat) : ℚ))
        (fileOf "clip.mov" "300" []) 7 = Res.ok (F64.fin 120) ∧
      ∃ raw : Nat, getSegmentStart64 amd64Conv (parseAs (F64.fin 600))
        (F64.fin ((120 : Nat) : ℚ)) (fileOf "clip.mov" "600" []) raw = Res.ok (F64.fin 360) :=
  ⟨(getSegmentStart64_range amd64Conv (parseAs (F64.fin 300)) (fileOf "clip.mov" "300" [])
      300 120 rfl (by norm_num) (by norm_num) (by norm_num)).2.2.1 rfl rfl 7,
   ((getSegmentStart64_range amd64Conv (parseAs (F64.fin 600)) (fileOf "clip.mov" "600" [])
      600 120 rfl (by norm_num) (by norm_num) (by norm_num)).2.2.2 rfl rfl 360).mpr
      (Or.inr (Or.inr rfl))⟩

/-! ## The machine at `D = 65`, `L = 12.82` -/

theorem isBinary64_12_82 : IsBinary64 f64_12_82 := by
  have h := round64_of_unit (x := f64_12_82) (u := 1 / 2 ^ 49) (e := 3)
    (m := 7217018402861220) (by norm_num [f64_12_82]) (by norm_num) (by norm_num)
    (by norm_num [f64_12_82]) (by norm_num [f64_12_82]) (by norm_num [f64_12_82])
    (by norm_num [f64_12_82]) (by norm_num) (by norm_num)
  unfold IsBinary64
  rw [h]
  norm_num [f64_12_82]

theorem maxSlots_65 : maxSlots 65 f64_12_82 = 5 := by
  unfold maxSlots
  rw [Int.floor_eq_iff]
  norm_num [f64_12_82]

theorem round64_12_82_mul_5 :
    round64 (f64_12_82 * ((5 : Int) : ℚ)) = F64.fin (2255318250894131 / 35184372088832) := by
  have h := round64_of_tie (x := f64_12_82 * ((5 : Int) : ℚ)) (u := 1 / 2 ^ 46) (e := 6)
    (m := 4510636501788262) (by norm_num [f64_12_82]) (by norm_num) (by norm_num)
    (by norm_num [f64_12_82]) (by norm_num [f64_12_82]) (by norm_num [f64_12_82])
    (by decide) (by norm_num) (by norm_num)
  rw [h]
  norm_num

theorem round64_quotient_65 :
    round64 ((2255318250894131 / 35184372088832 : ℚ) / f64_12_82) =
      F64.fin (5629499534213119 / 1125899906842624) := by
  have h := round64_of_unit (x := (2255318250894131 / 35184372088832 : ℚ) / f64_12_82)
    (u := 1 / 2 ^ 50) (e := 2)
    (m := 5629499534213119) (by norm_num [f64_12_82]) (by norm_num) (by norm_num)
    (by norm_num [f64_12_82]) (by norm_num [f64_12_82]) (by norm_num [f64_12_82])
    (by norm_num [f64_12_82]) (by norm_num) (by norm_num)
  rw [h]
  norm_num

/-- Line 118 at `D = 65`, `L = 12.82`: the quotient is rounded to `4.999999999999999` and
the slot count is 4, where `floor (D / L) = 5`. -/
theorem slotCount_65 (conv : F64 → Int) :
    F64.toInt64 conv (F64.div (F64.sub (F64.fin 65)
      (F64.mod (F64.fin 65) (F64.fin f64_12_82))) (F64.fin f64_12_82)) = 4 := by
  have ha : round64 (f64_12_82 * ((maxSlots 65 f64_12_82 : Int) : ℚ)) =
      F64.fin (2255318250894131 / 35184372088832) := by
    rw [maxSlots_65]
    exact round64_12_82_mul_5
  rw [quotient_fin 65 f64_12_82 (by norm_num [f64_12_82]) (by norm_num) _ ha,
    round64_quotient_65]
  exact toInt64_fin conv (by norm_num) (by norm_num) (by norm_num) (by norm_num)

/-- C3 fails as stated: at `D = 65` and the binary64 segment length `12.82` the
specification's range is `[1, 4)`, as `floor (D / L) = 5`, but line 118 gives 4 slots and the
range of the draw is `[1, 3)`: the raw value 2, which would select slot 3, selects slot 1 and
the start `3 * L` is never returned.  And at `D = 1e30`, `L = 11` on amd64 the call panics
instead of returning a start. -/
theorem getSegmentStart64_loses_slot :
    IsBinary64 f64_12_82 ∧ (11 : ℚ) ≤ f64_12_82 ∧ f64_12_82 ≤ 65 ∧
    slotLo 65 f64_12_82 = 1 ∧ slotHi 65 f64_12_82 = 4 ∧
    slotRange64 amd64Conv (F64.fin 65) (F64.fin f64_12_82) = (1, 3) ∧
    getSegmentStart64 amd64Conv (parseAs (F64.fin 65)) (F64.fin f64_12_82)
      (fileOf "clip.mov" "65" []) 2 = Res.ok (F64.fin f64_12_82) ∧
    getSegmentStart64 amd64Conv (parseAs (F64.fin f64_1e30)) (F64.fin 11)
      (fileOf "clip.mov" "1e30" []) 0 = Res.panic "invalid argument to Intn" := by
  refine ⟨isBinary64_12_82, by norm_num [f64_12_82], by norm_num [f64_12_82], ?_, ?_, ?_, ?_,
    getSegmentStart64_1e30 _ 0⟩
  · simp [slotLo, maxSlots_65]
  · simp [slotHi, maxSlots_65]
  · simp only [slotRange64, slotCount_65]
    decide
  · obtain ⟨k, hk, _, _, hkeq⟩ := segmentStartOf64_of_count amd64Conv (F64.fin 65)
      (F64.fin f64_12_82) f64_12_82 rfl 2 4 (slotCount_65 amd64Conv) (by norm_num)
      (by norm_num)
    have hk1 : k = 1 := by
      rw [hkeq]
      decide
    have hL := isBinary64_12_82
    unfold IsBinary64 at hL
    rw [hk1] at hk
    simp only [Int.cast_one, mul_one, hL] at hk
    simp only [getSegmentStart64, parseAs, hk]

/-! ## Panics that pass both guards -/

/-- C10, the code on amd64.  With `-d 11` and a probed duration of `1e30` both guards pass,
the conversion of line 118 overflows, the range of the draw is `(0, -2 ^ 63)` and
`rand.Intn` panics.  With `-d NaN` and a probed duration of 600 both guards pass as well
(every comparison with NaN is false) and `rand.Intn` panics. -/
theorem getSegmentStart64_panics :
    durationTooLow (F64.fin 11) = false ∧
    fileTooShort (F64.fin f64_1e30) (F64.fin 11) = false ∧
    slotRange64 amd64Conv (F64.fin f64_1e30) (F64.fin 11) = (0, -9223372036854775808) ∧
    getSegmentStart64 amd64Conv (parseAs (F64.fin f64_1e30)) (F64.fin 11)
      (fileOf "clip.mov" "1e30" []) 0 = Res.panic "invalid argument to Intn" ∧
    durationTooLow F64.nan = false ∧
    fileTooShort (F64.fin 600) F64.nan = false ∧
    slotRange64 amd64Conv (F64.fin 600) F64.nan = (0, -9223372036854775808) ∧
    getSegmentStart64 amd64Conv (parseAs (F64.fin 600)) F64.nan
      (fileOf "clip.mov" "600" []) 0 = Res.panic "invalid argument to Intn" := by
  have hrange := slotRange64_of_min amd64Conv (F64.fin f64_1e30) (F64.fin 11) slotCount_1e30
  have hnan : slotRange64 amd64Conv (F64.fin 600) F64.nan = (0, -9223372036854775808) :=
    slotRange64_of_min amd64Conv (F64.fin 600) F64.nan toInt64_amd64_nan
  refine ⟨?_, ?_, hrange, ?_, rfl, rfl, hnan, ?_⟩
  · simp [durationTooLow, F64.lt]
  · norm_num [fileTooShort, F64.lt, f64_1e30]
  · exact getSegmentStart64_1e30 _ 0
  · simp only [getSegmentStart64, parseAs]
    exact segmentStartOf64_of_min _ _ _ 0 hnan

end VideoHoneypot
